import Mathlib

set_option linter.unusedVariables false
set_option maxRecDepth 100000

/-!
Shallow embedding of the tape-device assembler core.

The Rust sources embedded here are:
  * `src/assembler/generator/mod.rs` — the code generator
    (`generate_byte_code`, `generate_ops_bytes`, `generate_string_bytes`,
    `generate_data_bytes`, `update_addresses`, `convert_label_map_to_linenum`);
  * `src/assembler/data.rs` — `compile_strings`;
  * `src/language/parser/params.rs` — `parse_number` and friends;
  * `src/language/mod.rs` — `parse_line` and its tokenising regex.

Modelling conventions:
  * Rust `u8`/`u16`/`usize` values are `Nat`; every `as u8` / `as u16`
    truncation in the source becomes an explicit `% 256` / `% 65536`.
  * Rust `HashMap<String, V>` values are association lists
    `List (String × V)`; iteration order of a `HashMap` is unspecified in
    Rust, so the list order stands for one arbitrary iteration order.
    `BTreeMap` values are association lists sorted by key.
  * Rust byte strings (`String` contents, program name/version) are
    `List Nat` byte lists; `compile_strings` works on the textual level, so
    there lines are `List Char` and UTF-8 encoding is modelled explicitly.
  * Fallible code returns `Except`/`Option`; a Rust panic (index out of
    bounds, `unwrap` of `None`) is modelled as a distinguished result
    (`Option.none` or a `panics` constructor).
  * The constants `TAPE_HEADER_1`, `TAPE_HEADER_2`, `PRG_VERSION`,
    `MAX_STRING_BYTES`, `MAX_DATA_BYTES` and the function
    `get_addr_byte_offset` live in `src/constants`, which is not among the
    provided sources; they are passed as explicit parameters (`h1`, `h2`,
    `pv`, `maxS`, `maxD`, `gabo`).
-/

/-- `Param` from `src/language/parser/params.rs`. Register-carrying variants
hold the canonical register id byte. -/
inductive Param : Type
  | Number (n : Nat)
  | DataReg (n : Nat)
  | AddrReg (n : Nat)
  | Addr (n : Nat)
  | Label (s : String)
  | StrKey (s : String)
  | DataKey (s : String)
deriving DecidableEq

/-- `AddressReplacement` from `src/assembler/program_model.rs` (declared in
the generator's imports): which symbol table a placeholder refers to. -/
inductive AddressReplacement : Type
  | none
  | label (k : String)
  | str (k : String)
  | data (k : String)
deriving DecidableEq

/-- A definition site: originating source line and line number. -/
structure Definition : Type where
  original_line : String
  line_num : Nat
deriving DecidableEq

/-- `LabelModel`: key plus optional definition site. -/
structure LabelModel : Type where
  key : String
  definition : Option Definition
deriving DecidableEq

/-- `StringModel`: key, content bytes, definition site. The Rust field is a
`String`; we keep its byte image, which is all the generator reads
(`content.len()` and `content.as_bytes()`). -/
structure StringModel : Type where
  key : String
  content : List Nat
  definition : Definition
deriving DecidableEq

/-- `DataModel`: key, raw content bytes, definition site. -/
structure DataModel : Type where
  key : String
  content : List Nat
  definition : Definition
deriving DecidableEq

/-- `OpModel`: one assembled instruction. -/
structure OpModel : Type where
  opcode : Nat
  params : List Param
  processed_line : String
  original_line : String
  line_num : Nat
deriving DecidableEq

/-- `ProgramModel`: name/version byte strings, ops in source order, and the
three symbol tables. -/
structure ProgramModel : Type where
  name : List Nat
  version : List Nat
  ops : List OpModel
  strings : List (String × StringModel)
  data : List (String × DataModel)
  labels : List (String × LabelModel)
deriving DecidableEq

/-- Modelled from the spec: byte image of a single operand (`OpModel`
encoding, spec §3): register/number operands contribute one byte, address
operands two big-endian bytes, symbolic operands a two-byte zero
placeholder. (`OpModel::to_bytes` lives in `program_model.rs`, which is not
among the provided sources.) -/
def paramBytes : Param → List Nat
  | .Number n => [n % 256]
  | .DataReg n => [n % 256]
  | .AddrReg n => [n % 256]
  | .Addr a => [a % 65536 / 256, a % 256]
  | .Label _ => [0, 0]
  | .StrKey _ => [0, 0]
  | .DataKey _ => [0, 0]

/-- The `AddressReplacement` contributed by one operand. -/
def paramRepl : Param → AddressReplacement
  | .Label k => .label k
  | .StrKey k => .str k
  | .DataKey k => .data k
  | _ => .none

/-- Modelled from the spec: `OpModel::to_bytes` (spec §3): opcode byte
followed by the operand encodings, paired with the symbolic replacement of
the op's address operand (an opcode has at most one address operand; if
several symbolic operands were present the last one would win). -/
def OpModel.to_bytes (op : OpModel) : List Nat × AddressReplacement :=
  (op.opcode % 256 :: op.params.flatMap paramBytes,
   op.params.foldl
     (fun acc p =>
       match paramRepl p with
       | AddressReplacement.none => acc
       | r => r)
     AddressReplacement.none)

/-- Number of bytes an op occupies in the ops segment. -/
def opLen (op : OpModel) : Nat := (OpModel.to_bytes op).1.length

/-- Association-list lookup, first match wins (mirrors `HashMap::get`). -/
def lookupA {α : Type} : List (String × α) → String → Option α
  | [], _ => Option.none
  | (k', v) :: rest, k => if k' = k then some v else lookupA rest k

/-- Association-list insert with overwrite (mirrors `HashMap::insert`). -/
def insertA {α : Type} : List (String × α) → String → α → List (String × α)
  | [], k, v => [(k, v)]
  | (k', v') :: rest, k, v =>
    if k' = k then (k, v) :: rest else (k', v') :: insertA rest k v

/-- `targets.entry(key).or_insert_with(Vec::new).push(offset)`. -/
def pushTarget : List (String × List Nat) → String → Nat → List (String × List Nat)
  | [], k, o => [(k, [o])]
  | (k', os) :: rest, k, o =>
    if k' = k then (k', os ++ [o]) :: rest else (k', os) :: pushTarget rest k o

/-- The recorded target offsets for a key (empty when absent). -/
def offsetsIn (m : List (String × List Nat)) (k : String) : List Nat :=
  (lookupA m k).getD []

/-- Keys of an association list. -/
def keysOf {α : Type} (m : List (String × α)) : List String := m.map Prod.fst

/-- `OpsOutput` from the generator. -/
structure OpsOutput : Type where
  bytes : List Nat
  string_targets : List (String × List Nat)
  data_targets : List (String × List Nat)
  label_targets : List (String × List Nat)
  label_addresses : List (String × Nat)
deriving DecidableEq

def emptyOpsOutput : OpsOutput := ⟨[], [], [], [], []⟩

/-- `BTreeMap<usize, LabelModel>` insert: keep the list sorted by key,
overwrite on an equal key. -/
def insertSorted : List (Nat × LabelModel) → Nat → LabelModel → List (Nat × LabelModel)
  | [], k, v => [(k, v)]
  | (k', v') :: rest, k, v =>
    if k < k' then (k, v) :: (k', v') :: rest
    else if k = k' then (k, v) :: rest
    else (k', v') :: insertSorted rest k v

/-- Loop of `convert_label_map_to_linenum`: key each model by
`model.definition.unwrap().line_num`; an absent definition is a Rust panic,
modelled as `Option.none`. Later entries overwrite earlier ones on equal
line numbers, as in `Iterator::collect::<BTreeMap<_, _>>()`. -/
def convertAux : List (String × LabelModel) → List (Nat × LabelModel) →
    Option (List (Nat × LabelModel))
  | [], acc => some acc
  | (_, model) :: rest, acc =>
    match model.definition with
    | Option.none => Option.none
    | some d => convertAux rest (insertSorted acc d.line_num model)

/-- `convert_label_map_to_linenum` from `generator/mod.rs`. -/
def convert_label_map_to_linenum (labels : List (String × LabelModel)) :
    Option (List (Nat × LabelModel)) :=
  convertAux labels []

/-- The label-binding step at the head of the op loop: if the pending label
with the smallest line number (the first `labels.values().next()`) is
defined at or before the current op's line, record its address as the
current ops-segment offset (`output.bytes.len() as u16`) and remove it.
The sorted map's key equals the stored model's definition line number by
construction of `convert_label_map_to_linenum` (the source re-reads it via
`definition.as_ref().unwrap().line_num`). -/
def bindLabels (pending : List (Nat × LabelModel)) (opLine : Nat)
    (out : OpsOutput) : List (Nat × LabelModel) × OpsOutput :=
  match pending with
  | [] => (pending, out)
  | (lnum, model) :: rest =>
    if lnum ≤ opLine then
      (rest,
       { out with
         label_addresses :=
           insertA out.label_addresses model.key (out.bytes.length % 65536) })
    else (pending, out)

/-- Record the target site of an op's symbolic operand, at absolute offset
`output.bytes.len() + get_addr_byte_offset(op.opcode) + offset`, truncated
`as u16`. -/
def recordTarget (gabo : Nat → Nat) (offset : Nat) (op : OpModel)
    (out : OpsOutput) : OpsOutput :=
  match (OpModel.to_bytes op).2 with
  | AddressReplacement.none => out
  | AddressReplacement.label k =>
    { out with
      label_targets :=
        pushTarget out.label_targets k
          ((out.bytes.length + gabo op.opcode + offset) % 65536) }
  | AddressReplacement.str k =>
    { out with
      string_targets :=
        pushTarget out.string_targets k
          ((out.bytes.length + gabo op.opcode + offset) % 65536) }
  | AddressReplacement.data k =>
    { out with
      data_targets :=
        pushTarget out.data_targets k
          ((out.bytes.length + gabo op.opcode + offset) % 65536) }

/-- The op-emission loop of `generate_ops_bytes`. -/
def opsLoop (gabo : Nat → Nat) (offset : Nat) :
    List OpModel → List (Nat × LabelModel) → OpsOutput → OpsOutput
  | [], _, out => out
  | op :: rest, pending, out =>
    let st := bindLabels pending op.line_num out
    let out' := recordTarget gabo offset op st.2
    opsLoop gabo offset rest st.1
      { out' with bytes := out'.bytes ++ (OpModel.to_bytes op).1 }

/-- `generate_ops_bytes` from `generator/mod.rs`; `none` is the Rust panic
raised by `convert_label_map_to_linenum` on an undefined label. -/
def generate_ops_bytes (gabo : Nat → Nat) (ops : List OpModel) (offset : Nat)
    (labels : List (String × LabelModel)) : Option OpsOutput :=
  (convert_label_map_to_linenum labels).map
    (fun pending => opsLoop gabo offset ops pending emptyOpsOutput)

/-- Generation errors (`anyhow::Error::msg` call sites of the generator). -/
inductive GenErr : Type
  | tooManyStrings (original_line : String) (line_num : Nat)
  | tooMuchData (original_line : String) (line_num : Nat)
deriving DecidableEq

/-- Decidable equality for `Except` results, used to evaluate the embedding
at concrete inputs. -/
instance {ε α : Type} [DecidableEq ε] [DecidableEq α] :
    DecidableEq (Except ε α) := fun a b =>
  match a, b with
  | .error e1, .error e2 =>
    if h : e1 = e2 then isTrue (by rw [h]) else isFalse (by simp [h])
  | .ok v1, .ok v2 =>
    if h : v1 = v2 then isTrue (by rw [h]) else isFalse (by simp [h])
  | .error _, .ok _ => isFalse (by simp)
  | .ok _, .error _ => isFalse (by simp)

/-- Lexicographic comparison of character lists by code point, the order of
Rust's `String::cmp` (code-point order and UTF-8 byte order agree). -/
def charListLt : List Char → List Char → Bool
  | [], [] => false
  | [], _ :: _ => true
  | _ :: _, [] => false
  | a :: as, b :: bs =>
    if a < b then true else if b < a then false else charListLt as bs

/-- Insertion step of sorting by key (`list.sort_by(|l, r| l.0.cmp(&r.0))`). -/
def insOrd {α : Type} (x : String × α) : List (String × α) → List (String × α)
  | [] => [x]
  | y :: rest =>
    if charListLt x.1.data y.1.data then x :: y :: rest else y :: insOrd x rest

/-- Sort an association list by key in lexicographic order. -/
def sortByKey {α : Type} : List (String × α) → List (String × α)
  | [] => []
  | x :: rest => insOrd x (sortByKey rest)

/-- The byte image of one strings-segment entry: one length byte
(`content.len() as u8`) followed by the content bytes. -/
def strEntryBytes (p : String × StringModel) : List Nat :=
  (p.2 : StringModel).content.length % 256 :: (p.2 : StringModel).content

/-- Loop of `generate_string_bytes`: for each entry in key order, record its
address as the current segment offset, then emit one length byte followed by
the content bytes; fail when the cumulative size would exceed the cap. -/
def stringsLoop (maxS : Nat) :
    List (String × StringModel) → List Nat → List (String × Nat) →
    Except GenErr (List Nat × List (String × Nat))
  | [], output, addresses => .ok (output, addresses)
  | (key, sm) :: rest, output, addresses =>
    if output.length + sm.content.length > maxS then
      .error (.tooManyStrings sm.definition.original_line sm.definition.line_num)
    else
      stringsLoop maxS rest
        (output ++ sm.content.length % 256 :: sm.content)
        (insertA addresses key (output.length % 65536))

/-- `generate_string_bytes` from `generator/mod.rs`. -/
def generate_string_bytes (maxS : Nat) (strings : List (String × StringModel)) :
    Except GenErr (List Nat × List (String × Nat)) :=
  stringsLoop maxS (sortByKey strings) [] []

/-- Loop of `generate_data_bytes`: same shape as the strings loop, without
the length-byte prefix. -/
def dataLoop (maxD : Nat) :
    List (String × DataModel) → List Nat → List (String × Nat) →
    Except GenErr (List Nat × List (String × Nat))
  | [], output, addresses => .ok (output, addresses)
  | (key, dm) :: rest, output, addresses =>
    if output.length + dm.content.length > maxD then
      .error (.tooMuchData dm.definition.original_line dm.definition.line_num)
    else
      dataLoop maxD rest (output ++ dm.content)
        (insertA addresses key (output.length % 65536))

/-- `generate_data_bytes` from `generator/mod.rs`. -/
def generate_data_bytes (maxD : Nat) (data : List (String × DataModel)) :
    Except GenErr (List Nat × List (String × Nat)) :=
  dataLoop maxD (sortByKey data) [] []

/-- `(n as u16).to_be_bytes()`. -/
def u16be (n : Nat) : List Nat := [n % 65536 / 256, n % 256]

/-- `bytes[i] = v`, which panics (here: `none`) when `i` is out of range. -/
def setByte (bytes : List Nat) (i v : Nat) : Option (List Nat) :=
  if i < bytes.length then some (bytes.set i v) else Option.none

/-- Write one resolved 16-bit address big-endian at `o`, `o + 1`. -/
def writeAddr (bytes : List Nat) (o a : Nat) : Option (List Nat) :=
  match setByte bytes o (a % 65536 / 256) with
  | Option.none => Option.none
  | some b => setByte b (o + 1) (a % 256)

/-- Patch one source's address into every recorded offset. -/
def writeAll (bytes : List Nat) : List Nat → Nat → Option (List Nat)
  | [], _ => some bytes
  | o :: rest, a =>
    match writeAddr bytes o a with
    | Option.none => Option.none
    | some b => writeAll b rest a

/-- `update_addresses` from `generator/mod.rs`: iterate the sources
(address table); a source key with no recorded target is skipped, a target
key with no source is never touched. -/
def update_addresses (bytes : List Nat) (targets : List (String × List Nat)) :
    List (String × Nat) → Option (List Nat)
  | [] => some bytes
  | (k, a) :: rest =>
    match lookupA targets k with
    | Option.none => update_addresses bytes targets rest
    | some offs =>
      match writeAll bytes offs a with
      | Option.none => Option.none
      | some b => update_addresses b targets rest

/-- `generate_byte_code` from `generator/mod.rs`. The outer `Option` is a
Rust panic (undefined label during conversion, or an out-of-range patch
write); the `Except` carries the generator's error returns. -/
def generate_byte_code (h1 h2 pv maxS maxD : Nat) (gabo : Nat → Nat)
    (pm : ProgramModel) : Option (Except GenErr (List Nat)) :=
  let header :=
    [h1, h2, pv, pm.name.length % 256] ++ pm.name ++
      [pm.version.length % 256] ++ pm.version
  match generate_ops_bytes gabo pm.ops (header.length + 2) pm.labels with
  | Option.none => Option.none
  | some opsOut =>
    match generate_string_bytes maxS pm.strings with
    | .error e => some (.error e)
    | .ok (string_bytes, string_addresses) =>
      match generate_data_bytes maxD pm.data with
      | .error e => some (.error e)
      | .ok (data_bytes, data_addresses) =>
        let output := header ++ u16be opsOut.bytes.length ++ opsOut.bytes ++
          u16be string_bytes.length ++ string_bytes ++ data_bytes
        match update_addresses output opsOut.string_targets string_addresses with
        | Option.none => Option.none
        | some o1 =>
          match update_addresses o1 opsOut.data_targets data_addresses with
          | Option.none => Option.none
          | some o2 =>
            match update_addresses o2 opsOut.label_targets opsOut.label_addresses with
            | Option.none => Option.none
            | some o3 => some (.ok o3)

/-- The unpatched tape laid out by `generate_byte_code`: header bytes,
length-prefixed name and version, ops length and bytes, strings length and
bytes, data bytes. -/
def rawTape (h1 h2 pv : Nat) (pm : ProgramModel) (opsOut : OpsOutput)
    (sb db : List Nat) : List Nat :=
  [h1, h2, pv, pm.name.length % 256] ++ pm.name ++ [pm.version.length % 256] ++
    pm.version ++ u16be opsOut.bytes.length ++ opsOut.bytes ++
    u16be sb.length ++ sb ++ db

/-- Big-endian 16-bit read at `o` (out-of-range bytes read as 0). -/
def readU16 (bytes : List Nat) (o : Nat) : Nat :=
  bytes.getD o 0 * 256 + bytes.getD (o + 1) 0

/-- Ops-segment cursor at the start of op `i`: total byte length of the
preceding ops. -/
def cursorAt (ops : List OpModel) (i : Nat) : Nat :=
  ((ops.take i).map opLen).sum

/-- Length of the tape prefix that precedes the ops segment: 2 header
bytes, 1 version byte, length-prefixed name and version, and the 2-byte
ops-segment length field. -/
def tapePrefixLen (pm : ProgramModel) : Nat :=
  7 + pm.name.length + pm.version.length

/-- Concatenated byte image of an op list. -/
def opsBytes (ops : List OpModel) : List Nat :=
  ops.flatMap (fun op => (OpModel.to_bytes op).1)

/-- Which of the three symbol namespaces a target refers to. -/
inductive TargetKind : Type
  | lbl
  | str
  | dat
deriving DecidableEq

/-- The symbolic key of an op's replacement, tagged with its namespace. -/
def replKey : AddressReplacement → Option (TargetKind × String)
  | AddressReplacement.none => Option.none
  | AddressReplacement.label k => some (.lbl, k)
  | AddressReplacement.str k => some (.str, k)
  | AddressReplacement.data k => some (.dat, k)

/-- Select the target map of a namespace. -/
def targetsSel (κ : TargetKind) (o : OpsOutput) : List (String × List Nat) :=
  match κ with
  | .lbl => o.label_targets
  | .str => o.string_targets
  | .dat => o.data_targets

/-- Select the address table of a namespace. -/
def tableSel (κ : TargetKind) (sa da la : List (String × Nat)) :
    List (String × Nat) :=
  match κ with
  | .lbl => la
  | .str => sa
  | .dat => da

/-- The target-site offsets that the op loop records for namespace `κ` and
key `k`, starting from ops-segment cursor `base`. -/
def siteOffsets (gabo : Nat → Nat) (base offset : Nat) (ops : List OpModel)
    (κ : TargetKind) (k : String) : List Nat :=
  match ops with
  | [] => []
  | op :: rest =>
    let tail := siteOffsets gabo (base + opLen op) offset rest κ k
    if replKey (OpModel.to_bytes op).2 = some (κ, k) then
      ((base + gabo op.opcode + offset) % 65536) :: tail
    else tail

/-- The `.ops` section marker, as a character list. -/
def opsMarker : List Char := ['.', 'o', 'p', 's']

/-- UTF-8 encoding of one character (Rust `str::as_bytes`). -/
def utf8Bytes (c : Char) : List Nat :=
  let n := c.toNat
  if n < 128 then [n]
  else if n < 2048 then [192 + n / 64, 128 + n % 64]
  else if n < 65536 then [224 + n / 4096, 128 + n / 64 % 64, 128 + n % 64]
  else [240 + n / 262144, 128 + n / 4096 % 64, 128 + n / 64 % 64, 128 + n % 64]

/-- UTF-8 byte image of a character list (Rust `String::as_bytes`); its
length is the Rust `String::len`. -/
def contentBytes (l : List Char) : List Nat := l.flatMap utf8Bytes

/-- `str::trim` (the source trims Unicode whitespace; the embedding uses
`Char.isWhitespace`, which agrees on all ASCII input). -/
def trimChars (l : List Char) : List Char :=
  ((l.dropWhile Char.isWhitespace).reverse.dropWhile Char.isWhitespace).reverse

/-- `line.find('=')`: index of the first `=`. -/
def findEq (line : List Char) : Option Nat := line.findIdx? (· = '=')

/-- The `Err` call sites of `compile_strings`, by kind, carrying the
offending line. -/
inductive CompErr : Type
  | invalidKey (line : List Char)
  | tooLong (line : List Char)
  | tooMany (line : List Char)
  | badLine (line : List Char)
  | eof
deriving DecidableEq

/-- Result of `compile_strings`: the key→offset mapping and the emitted
bytes, an error, or a Rust panic (`lines.remove(0)` on an empty vector). -/
inductive CompRes : Type
  | ok (mapping : List (String × Nat)) (output : List Nat)
  | err (e : CompErr)
  | panics
deriving DecidableEq

/-- The `while line != ".ops"` loop of `compile_strings`
(`src/assembler/data.rs`): split the line at its first `=`, validate the
trimmed key against `[A-Za-z0-9_]` characters, bound the content at 255
bytes and the accumulated output below `u16::MAX`, then record the mapping
and emit one length byte plus the content bytes; reaching the end of input
before `.ops` is an error. -/
def strGo (keep : Bool) : List Char → List (List Char) →
    List (String × Nat) → List Nat → CompRes
  | line, rest, mapping, output =>
    if line = opsMarker then .ok mapping output
    else
      match findEq line with
      | Option.none => .err (.badLine line)
      | some idx =>
        let content0 := (line.drop idx).drop 1
        let content := if keep then content0 else trimChars content0
        let key := trimChars (line.take idx)
        if key.any (fun c => !(c.isAlphanum || c = '_')) then
          .err (.invalidKey line)
        else if (contentBytes content).length > 255 then .err (.tooLong line)
        else if output.length ≥ 65535 then .err (.tooMany line)
        else
          match rest with
          | [] => .err .eof
          | l :: ls =>
            strGo keep l ls (insertA mapping (String.mk key) (output.length % 65536))
              (output ++ (contentBytes content).length % 256 :: contentBytes content)

/-- `compile_strings` from `src/assembler/data.rs`. -/
def compile_strings (lines : List (List Char)) (keep : Bool) : CompRes :=
  match lines with
  | [] => .panics
  | l :: ls => strGo keep l ls [] []

/-- `true` on a successful `compile_strings` result. -/
def compOk : CompRes → Bool
  | .ok _ _ => true
  | _ => false

/-- Length of the emitted string-section bytes of a successful result. -/
def compLen : CompRes → Nat
  | .ok _ output => output.length
  | _ => 0

/-- A string-section line `a=bb…b` with 255 `b`s of content; one entry of
256 emitted bytes. -/
def aLine : List Char := 'a' :: '=' :: List.replicate 255 'b'

/-- 256 copies of `aLine` followed by the `.ops` marker: every entry starts
below the 65 535 check, yet the emitted total is 65 536 bytes. -/
def c6Lines : List (List Char) := List.replicate 256 aLine ++ [opsMarker]

/-- `char::to_digit(radix)`: 0-9, then a-z / A-Z as 10…35, admitted when
below the radix. -/
def digitVal (r : Nat) (c : Char) : Option Nat :=
  let v : Option Nat :=
    if '0' ≤ c ∧ c ≤ '9' then some (c.toNat - 48)
    else if 'a' ≤ c ∧ c ≤ 'z' then some (c.toNat - 87)
    else if 'A' ≤ c ∧ c ≤ 'Z' then some (c.toNat - 55)
    else Option.none
  match v with
  | some v => if v < r then some v else Option.none
  | Option.none => Option.none

/-- Accumulate the digits of a radix-`r` literal. -/
def digitsVal (r : Nat) : List Char → Nat → Option Nat
  | [], acc => some acc
  | c :: rest, acc =>
    match digitVal r c with
    | Option.none => Option.none
    | some d => digitsVal r rest (acc * r + d)

/-- Drop one optional leading `+`. -/
def stripPlus : List Char → List Char
  | '+' :: rest => rest
  | s => s

/-- `u8::from_str_radix(s, r)` / `str::parse::<u8>()`: an optional leading
`+`, then one or more radix-`r` digits, failing on any other character and
on overflow past 255. -/
def fromStrRadixU8 (r : Nat) (s : List Char) : Option Nat :=
  let digits := stripPlus s
  if digits.isEmpty then Option.none
  else
    match digitsVal r digits 0 with
    | Option.none => Option.none
    | some v => if v ≤ 255 then some v else Option.none

/-- `parse_number` from `src/language/parser/params.rs`: `x` + hex, `b` +
binary with total token length 9, a three-character single-quoted ASCII
character literal, or decimal, each through `u8` parsing. -/
def parse_number (input : List Char) : Option Param :=
  if input.head? = some 'x' then (fromStrRadixU8 16 input.tail).map Param.Number
  else if input.head? = some 'b' then
    if input.length = 9 then (fromStrRadixU8 2 input.tail).map Param.Number
    else Option.none
  else if input.length = 3 ∧ input.head? = some '\'' ∧ input.getLast? = some '\'' then
    match input.get? 1 with
    | some c => if c.toNat < 128 then some (Param.Number c.toNat) else Option.none
    | Option.none => Option.none
  else (fromStrRadixU8 10 input).map Param.Number

/-- Numeric value of a digit list, invalid digits read as 0. -/
def valOf (r : Nat) (l : List Char) : Nat :=
  l.foldl (fun a c => a * r + (digitVal r c).getD 0) 0

/-- A radix-`r` `u8` literal: optional `+`, one or more radix-`r` digits,
value at most 255. -/
def radixOkB (r : Nat) (s : List Char) : Bool :=
  let d := stripPlus s
  !d.isEmpty && d.all (fun c => (digitVal r c).isSome) && decide (valOf r d ≤ 255)

/-- The exact success set of `parse_number`, stated structurally: the
amended form of the claim's enumeration. -/
def amendedNumberB (s : List Char) : Bool :=
  if s.head? = some 'x' then radixOkB 16 s.tail
  else if s.head? = some 'b' then decide (s.length = 9) && radixOkB 2 s.tail
  else if s.length = 3 ∧ s.head? = some '\'' ∧ s.getLast? = some '\'' then
    match s.get? 1 with
    | some c => decide (c.toNat < 128)
    | Option.none => false
  else radixOkB 10 s

/-- `!c.is_whitespace()`, the regex `\S`. -/
def notWs (c : Char) : Bool := !c.isWhitespace

/-- The tokenising regex `'.'|(?:\S)+` of `src/language/mod.rs`, applied via
`find_iter` (leftmost-first alternation): at each scan position, skip
whitespace; a quote followed by any non-newline character and another quote
is one three-character token; otherwise a maximal run of non-whitespace
characters is one token. -/
def tokenize : List Char → List (List Char)
  | [] => []
  | c :: rest =>
    if c.isWhitespace then tokenize rest
    else if c = '\'' then
      match rest with
      | m :: q :: rest2 =>
        if q = '\'' ∧ m ≠ '\n' then ['\'', m, '\''] :: tokenize rest2
        else
          (c :: (m :: q :: rest2).takeWhile notWs) ::
            tokenize ((m :: q :: rest2).dropWhile notWs)
      | [] => [[c]]
      | [m] =>
        (c :: List.takeWhile notWs [m]) :: tokenize (List.dropWhile notWs [m])
    else (c :: rest.takeWhile notWs) :: tokenize (rest.dropWhile notWs)
termination_by l => l.length
decreasing_by
  all_goals simp
  · omega
  · have h := (List.dropWhile_sublist (l := m :: q :: rest2) notWs).length_le
    simp at h
    omega
  · have h := (List.dropWhile_sublist (l := [m]) notWs).length_le
    simp at h
    omega
  · exact Nat.lt_succ_of_le (List.dropWhile_sublist notWs).length_le

/-- One entry of the opcode catalogue `OPS` (in `src/language/ops.rs`, not
among the provided sources): its mnemonic matcher, its signature parser
(`None` when no signature matches), and its error template. -/
structure OpDesc : Type where
  accepts : String → Bool
  parse_params : List String → Option (Nat × List Param)
  error_text : String

/-- Result of `parse_line`: success, one of its two error returns, or the
panic raised by indexing `parts[0]` on an empty token list. -/
inductive LineResult : Type
  | ok (opcode : Nat) (params : List Param)
  | errBadParams
  | errNoMatch
  | panics
deriving DecidableEq

/-- `parse_line` from `src/language/mod.rs`: tokenise, then dispatch on the
first token over the opcode catalogue in declaration order. `parts[0]` is
indexed unconditionally, so an empty token list is a panic. -/
def parse_line (cat : List OpDesc) (input : List Char) : LineResult :=
  let parts := tokenize input
  match parts with
  | [] => .panics
  | first :: rest =>
    match cat.find? (fun op => op.accepts (String.mk first)) with
    | some op =>
      match op.parse_params (rest.map String.mk) with
      | Option.none => .errBadParams
      | some (b, ps) => .ok b ps
    | Option.none => .errNoMatch

/-- A one-op program used to evaluate the generator at a concrete input:
`prts foo` printing the string `"ab"` registered under key `foo`. -/
def opC1 : OpModel := ⟨1, [Param.StrKey "foo"], "", "prts foo", 0⟩

/-- Concrete program model for `opC1`: name `a`, version `b`, one string. -/
def pmC1 : ProgramModel :=
  ⟨[97], [98], [opC1], [("foo", ⟨"foo", [97, 98], ⟨"foo=ab", 1⟩⟩)], [], []⟩

/-! ## Helper lemmas -/

theorem lookupA_insertA_self {α : Type} (m : List (String × α)) (k : String) (v : α) :
    lookupA (insertA m k v) k = some v := by
  induction m with
  | nil => simp [insertA, lookupA]
  | cons p rest ih =>
    obtain ⟨k', v'⟩ := p
    by_cases h : k' = k
    · simp [insertA, lookupA, h]
    · simp [insertA, lookupA, h, ih]

theorem lookupA_insertA_ne {α : Type} (m : List (String × α)) (k k' : String) (v : α)
    (h : k ≠ k') : lookupA (insertA m k v) k' = lookupA m k' := by
  induction m with
  | nil => simp [insertA, lookupA, h]
  | cons p rest ih =>
    obtain ⟨k0, v0⟩ := p
    by_cases h0 : k0 = k
    · subst h0
      simp [insertA, lookupA, h]
    · simp [insertA, lookupA, h0, ih]

theorem lookupA_insertA_isSome {α : Type} (m : List (String × α)) (k0 k : String) (v : α) :
    (lookupA (insertA m k0 v) k).isSome ↔ k = k0 ∨ (lookupA m k).isSome := by
  by_cases h : k = k0
  · subst h
    simp [lookupA_insertA_self]
  · rw [lookupA_insertA_ne m k0 k v (fun hh => h hh.symm)]
    simp [h]

theorem lookupA_eq_none_of_not_mem_keys {α : Type} (m : List (String × α)) (k : String)
    (h : k ∉ keysOf m) : lookupA m k = Option.none := by
  induction m with
  | nil => simp [lookupA]
  | cons p rest ih =>
    obtain ⟨k', v'⟩ := p
    simp only [keysOf, List.map_cons, List.mem_cons] at h
    push_neg at h
    have h1 : ¬k' = k := fun hh => h.1 hh.symm
    simp [lookupA, h1, ih (by simpa [keysOf] using h.2)]

theorem tokenize_of_all_ws (l : List Char) (h : l.all Char.isWhitespace = true) :
    tokenize l = [] := by
  induction l with
  | nil => simp [tokenize]
  | cons c rest ih =>
    simp only [List.all_cons, Bool.and_eq_true] at h
    rw [tokenize.eq_def]
    simp [h.1, ih h.2]

theorem tokenize_ne_nil_of_not_ws (l : List Char) (c : Char) (hc : c ∈ l)
    (h : ¬c.isWhitespace) : tokenize l ≠ [] := by
  induction l with
  | nil => simp at hc
  | cons a rest ih =>
    by_cases ha : a.isWhitespace
    · have hca : c ≠ a := fun e => h (e ▸ ha)
      have hcr : c ∈ rest := by
        rcases List.mem_cons.mp hc with h1 | h1
        · exact absurd h1 hca
        · exact h1
      rw [tokenize.eq_def]
      simpa [ha] using ih hcr
    · rw [tokenize.eq_def]
      cases rest with
      | nil =>
        simp only [ha, if_false, Bool.false_eq_true]
        split <;> simp
      | cons b rest' =>
        simp only [ha, if_false, Bool.false_eq_true]
        split
        · split
          · split <;> simp
          · simp
          · simp
        · simp

theorem convertAux_eq_none_iff (l : List (String × LabelModel))
    (acc : List (Nat × LabelModel)) :
    convertAux l acc = Option.none ↔
      ∃ p ∈ l, (p.2 : LabelModel).definition = Option.none := by
  induction l generalizing acc with
  | nil => simp [convertAux]
  | cons p rest ih =>
    obtain ⟨k, model⟩ := p
    cases hd : model.definition with
    | none => simp [convertAux, hd]
    | some d =>
      rw [convertAux]
      simp only [hd, ih]
      constructor
      · intro ⟨q, hq, hqd⟩
        exact ⟨q, List.mem_cons_of_mem _ hq, hqd⟩
      · intro ⟨q, hq, hqd⟩
        rcases List.mem_cons.mp hq with h1 | h1
        · rw [h1] at hqd
          simp only at hqd
          rw [hd] at hqd
          cases hqd
        · exact ⟨q, h1, hqd⟩

theorem insertSorted_mem_sub (m : List (Nat × LabelModel)) (k : Nat) (v : LabelModel)
    (q : Nat × LabelModel) (hq : q ∈ insertSorted m k v) : q = (k, v) ∨ q ∈ m := by
  induction m with
  | nil => simpa [insertSorted] using hq
  | cons p rest ih =>
    obtain ⟨k', v'⟩ := p
    rw [insertSorted] at hq
    split at hq
    · rcases List.mem_cons.mp hq with h1 | h1
      · exact Or.inl h1
      · exact Or.inr h1
    · split at hq
      · rcases List.mem_cons.mp hq with h1 | h1
        · exact Or.inl h1
        · exact Or.inr (List.mem_cons_of_mem _ h1)
      · rcases List.mem_cons.mp hq with h1 | h1
        · exact Or.inr (h1 ▸ List.mem_cons_self _ _)
        · rcases ih h1 with h2 | h2
          · exact Or.inl h2
          · exact Or.inr (List.mem_cons_of_mem _ h2)

theorem insertSorted_keys_sorted (m : List (Nat × LabelModel)) (k : Nat) (v : LabelModel)
    (h : List.Pairwise (fun a b => a.1 < b.1) m) :
    List.Pairwise (fun (a b : Nat × LabelModel) => a.1 < b.1) (insertSorted m k v) := by
  induction m with
  | nil => simp [insertSorted]
  | cons p rest ih =>
    obtain ⟨k', v'⟩ := p
    rw [List.pairwise_cons] at h
    rw [insertSorted]
    by_cases h1 : k < k'
    · simp only [h1, if_true]
      refine List.pairwise_cons.mpr ⟨?_, List.pairwise_cons.mpr h⟩
      intro q hq
      rcases List.mem_cons.mp hq with h2 | h2
      · rw [h2]
        exact h1
      · exact lt_trans h1 (h.1 q h2)
    · by_cases h2 : k = k'
      · subst h2
        simp only [lt_irrefl, if_false, if_pos rfl]
        refine List.pairwise_cons.mpr ⟨?_, h.2⟩
        intro q hq
        exact h.1 q hq
      · simp only [h1, if_false, h2, if_false]
        refine List.pairwise_cons.mpr ⟨?_, ih h.2⟩
        intro q hq
        rcases insertSorted_mem_sub rest k v q hq with h3 | h3
        · rw [h3]
          omega
        · exact h.1 q h3

theorem pairwise_keys_val_eq (l : List (Nat × LabelModel))
    (h : List.Pairwise (fun (a b : Nat × LabelModel) => a.1 < b.1) l)
    (n : Nat) (x y : LabelModel) (hx : (n, x) ∈ l) (hy : (n, y) ∈ l) : x = y := by
  induction l with
  | nil => simp at hx
  | cons p rest ih =>
    rw [List.pairwise_cons] at h
    rcases List.mem_cons.mp hx with h1 | h1 <;> rcases List.mem_cons.mp hy with h2 | h2
    · rw [← h1] at h2
      exact (Prod.mk.injEq _ _ _ _ ▸ h2 : n = n ∧ y = x).2.symm
    · exfalso
      have := h.1 _ h2
      rw [← h1] at this
      exact lt_irrefl n this
    · exfalso
      have := h.1 _ h1
      rw [← h2] at this
      exact lt_irrefl n this
    · exact ih h.2 h1 h2

theorem convertAux_sorted (l : List (String × LabelModel))
    (acc : List (Nat × LabelModel)) (conv : List (Nat × LabelModel))
    (hacc : List.Pairwise (fun (a b : Nat × LabelModel) => a.1 < b.1) acc)
    (h : convertAux l acc = some conv) :
    List.Pairwise (fun (a b : Nat × LabelModel) => a.1 < b.1) conv := by
  induction l generalizing acc with
  | nil =>
    rw [convertAux] at h
    exact (Option.some.injEq _ _ ▸ h : acc = conv) ▸ hacc
  | cons p rest ih =>
    obtain ⟨k, model⟩ := p
    rw [convertAux] at h
    cases hd : model.definition with
    | none => rw [hd] at h; cases h
    | some d =>
      rw [hd] at h
      exact ih _ (insertSorted_keys_sorted _ _ _ hacc) h

theorem convertAux_entry_src (l : List (String × LabelModel))
    (acc : List (Nat × LabelModel)) (conv : List (Nat × LabelModel))
    (h : convertAux l acc = some conv) (q : Nat × LabelModel) (hq : q ∈ conv) :
    q ∈ acc ∨ ∃ p ∈ l, (p.2 : LabelModel) = q.2 ∧
      ∃ d, (p.2 : LabelModel).definition = some d ∧ d.line_num = q.1 := by
  induction l generalizing acc with
  | nil =>
    rw [convertAux] at h
    exact Or.inl ((Option.some.injEq _ _ ▸ h : acc = conv) ▸ hq)
  | cons p rest ih =>
    obtain ⟨k, model⟩ := p
    rw [convertAux] at h
    cases hd : model.definition with
    | none => rw [hd] at h; cases h
    | some d =>
      rw [hd] at h
      rcases ih _ h with h1 | h1
      · rcases insertSorted_mem_sub _ _ _ _ h1 with h2 | h2
        · refine Or.inr ⟨(k, model), List.mem_cons_self _ _, ?_, d, hd, ?_⟩
          · rw [h2]
          · rw [h2]
        · exact Or.inl h2
      · obtain ⟨p', hp', hval, d', hd', hn⟩ := h1
        exact Or.inr ⟨p', List.mem_cons_of_mem _ hp', hval, d', hd', hn⟩

theorem recordTarget_label_addresses (gabo : Nat → Nat) (offset : Nat) (op : OpModel)
    (out : OpsOutput) :
    (recordTarget gabo offset op out).label_addresses = out.label_addresses := by
  rw [recordTarget]
  split <;> rfl

theorem recordTarget_bytes (gabo : Nat → Nat) (offset : Nat) (op : OpModel)
    (out : OpsOutput) : (recordTarget gabo offset op out).bytes = out.bytes := by
  rw [recordTarget]
  split <;> rfl

theorem bindLabels_nil (opLine : Nat) (out : OpsOutput) :
    bindLabels [] opLine out = ([], out) := rfl

theorem bindLabels_cons_le (lnum : Nat) (model : LabelModel)
    (rest : List (Nat × LabelModel)) (opLine : Nat) (out : OpsOutput)
    (h : lnum ≤ opLine) :
    bindLabels ((lnum, model) :: rest) opLine out =
      (rest,
       { out with
         label_addresses :=
           insertA out.label_addresses model.key (out.bytes.length % 65536) }) := by
  simp [bindLabels, h]

theorem bindLabels_cons_gt (lnum : Nat) (model : LabelModel)
    (rest : List (Nat × LabelModel)) (opLine : Nat) (out : OpsOutput)
    (h : ¬lnum ≤ opLine) :
    bindLabels ((lnum, model) :: rest) opLine out = ((lnum, model) :: rest, out) := by
  simp [bindLabels, h]

theorem opsLoop_label_addresses_src (gabo : Nat → Nat) (offset : Nat)
    (ops : List OpModel) (pending : List (Nat × LabelModel)) (out : OpsOutput)
    (k : String)
    (h : (lookupA (opsLoop gabo offset ops pending out).label_addresses k).isSome) :
    (lookupA out.label_addresses k).isSome ∨
      ∃ q ∈ pending, (q.2 : LabelModel).key = k := by
  induction ops generalizing pending out with
  | nil =>
    rw [opsLoop] at h
    exact Or.inl h
  | cons op rest ih =>
    rw [opsLoop] at h
    cases pending with
    | nil =>
      rw [bindLabels_nil] at h
      rcases ih _ _ h with h1 | h1
      · rw [recordTarget_label_addresses] at h1
        exact Or.inl h1
      · obtain ⟨q, hq, _⟩ := h1
        simp at hq
    | cons q0 qrest =>
      obtain ⟨lnum, model⟩ := q0
      by_cases hle : lnum ≤ op.line_num
      · rw [bindLabels_cons_le _ _ _ _ _ hle] at h
        rcases ih _ _ h with h1 | h1
        · rw [recordTarget_label_addresses] at h1
          rcases (lookupA_insertA_isSome _ _ _ _).mp h1 with h2 | h2
          · exact Or.inr ⟨(lnum, model), List.mem_cons_self _ _, h2.symm⟩
          · exact Or.inl h2
        · obtain ⟨q, hq, hqk⟩ := h1
          exact Or.inr ⟨q, List.mem_cons_of_mem _ hq, hqk⟩
      · rw [bindLabels_cons_gt _ _ _ _ _ hle] at h
        rcases ih _ _ h with h1 | h1
        · rw [recordTarget_label_addresses] at h1
          exact Or.inl h1
        · obtain ⟨q, hq, hqk⟩ := h1
          exact Or.inr ⟨q, hq, hqk⟩

theorem keys_nodup_val_eq {α : Type} (l : List (String × α))
    (h : (keysOf l).Nodup) (k : String) (x y : α)
    (hx : (k, x) ∈ l) (hy : (k, y) ∈ l) : x = y := by
  induction l with
  | nil => simp at hx
  | cons p rest ih =>
    obtain ⟨k0, v0⟩ := p
    simp only [keysOf, List.map_cons, List.nodup_cons] at h
    rcases List.mem_cons.mp hx with h1 | h1 <;> rcases List.mem_cons.mp hy with h2 | h2
    · rw [← h1] at h2
      exact (Prod.mk.injEq _ _ _ _ ▸ h2 : k = k ∧ y = x).2.symm
    · exfalso
      have hk : k0 = k := (Prod.mk.injEq _ _ _ _ ▸ h1.symm : k0 = k ∧ v0 = x).1
      exact h.1 (hk ▸ (List.mem_map.mpr ⟨(k, y), h2, rfl⟩))
    · exfalso
      have hk : k0 = k := (Prod.mk.injEq _ _ _ _ ▸ h2.symm : k0 = k ∧ v0 = y).1
      exact h.1 (hk ▸ (List.mem_map.mpr ⟨(k, x), h1, rfl⟩))
    · exact ih h.2 h1 h2

theorem conv_not_both (labels : List (String × LabelModel)) (m1 m2 : LabelModel)
    (d1 d2 : Definition)
    (hd1 : m1.definition = some d1) (hd2 : m2.definition = some d2)
    (hline : d1.line_num = d2.line_num) (hne : m1 ≠ m2)
    (conv : List (Nat × LabelModel))
    (hconv : convert_label_map_to_linenum labels = some conv) :
    ¬((∃ q ∈ conv, (q.2 : LabelModel) = m1) ∧
      (∃ q ∈ conv, (q.2 : LabelModel) = m2)) := by
  rintro ⟨⟨q1, hq1, hv1⟩, ⟨q2, hq2, hv2⟩⟩
  rw [convert_label_map_to_linenum] at hconv
  have hs := convertAux_sorted labels [] conv (by simp) hconv
  have h1 := convertAux_entry_src labels [] conv hconv q1 hq1
  have h2 := convertAux_entry_src labels [] conv hconv q2 hq2
  simp only [List.not_mem_nil, false_or] at h1 h2
  obtain ⟨p1, _, hp1v, dd1, hdd1, hn1⟩ := h1
  obtain ⟨p2, _, hp2v, dd2, hdd2, hn2⟩ := h2
  rw [hp1v, hv1, hd1] at hdd1
  rw [hp2v, hv2, hd2] at hdd2
  have e1 : d1 = dd1 := Option.some.injEq _ _ ▸ hdd1
  have e2 : d2 = dd2 := Option.some.injEq _ _ ▸ hdd2
  have hkeq : q1.1 = q2.1 := by
    rw [← hn1, ← hn2, ← e1, ← e2, hline]
  have hq1' : (q1.1, m1) ∈ conv := by
    have : q1 = (q1.1, m1) := by
      rw [← hv1]
    exact this ▸ hq1
  have hq2' : (q1.1, m2) ∈ conv := by
    have : q2 = (q1.1, m2) := by
      rw [hkeq, ← hv2]
    exact this ▸ hq2
  exact hne (pairwise_keys_val_eq conv hs q1.1 m1 m2 hq1' hq2')

/-! ## Claim theorems -/

/-- Claim C9: `parse_line` indexes the first token unconditionally, so it
panics exactly on inputs that contain no token, i.e. empty or
whitespace-only lines; on any input with a non-whitespace character it
returns a success or error value, never a panic. -/
theorem c9_parse_line_panics (cat : List OpDesc) (input : List Char) :
    parse_line cat input = LineResult.panics ↔
      input.all Char.isWhitespace = true := by
  constructor
  · intro h
    by_contra hall
    have ⟨c, hc, hcw⟩ : ∃ c ∈ input, ¬c.isWhitespace = true := by
      simpa [List.all_eq_true] using hall
    have hne := tokenize_ne_nil_of_not_ws input c hc hcw
    rw [parse_line] at h
    cases htok : tokenize input with
    | nil => exact hne htok
    | cons t ts =>
      rw [htok] at h
      simp only at h
      cases hf : List.find? (fun op => op.accepts (String.mk t)) cat with
      | none => rw [hf] at h; cases h
      | some op =>
        rw [hf] at h
        simp only at h
        cases hp : op.parse_params (ts.map String.mk) with
        | none => rw [hp] at h; cases h
        | some v => rw [hp] at h; cases h
  · intro h
    rw [parse_line, tokenize_of_all_ws input h]

/-- Claim C10: `generate_ops_bytes` panics (returns `none`) exactly when
some supplied `LabelModel` lacks a definition; and because the converted
map is keyed by definition line number, of two distinct labels defined with
the same line number at most one survives the conversion and at most one
receives an address in `label_addresses`. -/
theorem c10_label_map_totality (gabo : Nat → Nat) (ops : List OpModel)
    (offset : Nat) (labels : List (String × LabelModel)) (k1 k2 : String)
    (m1 m2 : LabelModel) (d1 d2 : Definition)
    (hmem1 : (k1, m1) ∈ labels) (hmem2 : (k2, m2) ∈ labels)
    (hd1 : m1.definition = some d1) (hd2 : m2.definition = some d2)
    (hline : d1.line_num = d2.line_num) (hne : m1 ≠ m2) :
    (generate_ops_bytes gabo ops offset labels = Option.none ↔
       ∃ p ∈ labels, (p.2 : LabelModel).definition = Option.none) ∧
    (∀ conv, convert_label_map_to_linenum labels = some conv →
       ¬((∃ q ∈ conv, (q.2 : LabelModel) = m1) ∧
         (∃ q ∈ conv, (q.2 : LabelModel) = m2))) ∧
    ((∀ p ∈ labels, (p.2 : LabelModel).key = p.1) → (keysOf labels).Nodup →
       m1.key = k1 → m2.key = k2 →
       ∀ out, generate_ops_bytes gabo ops offset labels = some out →
         ¬((lookupA out.label_addresses k1).isSome ∧
           (lookupA out.label_addresses k2).isSome)) := by
  refine ⟨?_, ?_, ?_⟩
  · rw [generate_ops_bytes, Option.map_eq_none', convert_label_map_to_linenum]
    exact convertAux_eq_none_iff labels []
  · intro conv hconv
    exact conv_not_both labels m1 m2 d1 d2 hd1 hd2 hline hne conv hconv
  · intro hkeys hnd hk1 hk2 out hout hboth
    rw [generate_ops_bytes] at hout
    rcases Option.map_eq_some'.mp hout with ⟨conv, hconv, hfold⟩
    have hs1 := opsLoop_label_addresses_src gabo offset ops conv emptyOpsOutput k1
      (hfold ▸ hboth.1)
    have hs2 := opsLoop_label_addresses_src gabo offset ops conv emptyOpsOutput k2
      (hfold ▸ hboth.2)
    simp only [emptyOpsOutput, lookupA, Option.isSome_none, Bool.false_eq_true,
      false_or] at hs1 hs2
    obtain ⟨q1, hq1, hq1k⟩ := hs1
    obtain ⟨q2, hq2, hq2k⟩ := hs2
    rw [convert_label_map_to_linenum] at hconv
    have h1 := convertAux_entry_src labels [] conv hconv q1 hq1
    have h2 := convertAux_entry_src labels [] conv hconv q2 hq2
    simp only [List.not_mem_nil, false_or] at h1 h2
    obtain ⟨p1, hp1, hp1v, _, _, _⟩ := h1
    obtain ⟨p2, hp2, hp2v, _, _, _⟩ := h2
    have hp1k : p1.1 = k1 := by rw [← hkeys p1 hp1, hp1v, hq1k]
    have hp2k : p2.1 = k2 := by rw [← hkeys p2 hp2, hp2v, hq2k]
    have hm1 : q1.2 = m1 := by
      have hpm : (k1, q1.2) ∈ labels := by
        have : p1 = (k1, q1.2) := by
          rw [← hp1k, ← hp1v]
        exact this ▸ hp1
      exact keys_nodup_val_eq labels hnd k1 q1.2 m1 hpm hmem1
    have hm2 : q2.2 = m2 := by
      have hpm : (k2, q2.2) ∈ labels := by
        have : p2 = (k2, q2.2) := by
          rw [← hp2k, ← hp2v]
        exact this ▸ hp2
      exact keys_nodup_val_eq labels hnd k2 q2.2 m2 hpm hmem2
    exact conv_not_both labels m1 m2 d1 d2 hd1 hd2 hline hne conv hconv
      ⟨⟨q1, hq1, hm1⟩, ⟨q2, hq2, hm2⟩⟩

/-- Witness for C10 at a concrete input: two defined labels `L1`, `L2` on
the same line 5; `generate_ops_bytes` does not panic, and the panic
characterisation holds. -/
theorem c10_label_map_totality_witness :
    generate_ops_bytes (fun _ => 0) [] 0
        [("L1", ⟨"L1", some ⟨"L1:", 5⟩⟩), ("L2", ⟨"L2", some ⟨"L2:", 5⟩⟩)] =
        Option.none ↔
      ∃ p ∈ [(("L1" : String), (⟨"L1", some ⟨"L1:", 5⟩⟩ : LabelModel)),
             ("L2", ⟨"L2", some ⟨"L2:", 5⟩⟩)],
        (p.2 : LabelModel).definition = Option.none :=
  (c10_label_map_totality (fun _ => 0) [] 0
    [("L1", ⟨"L1", some ⟨"L1:", 5⟩⟩), ("L2", ⟨"L2", some ⟨"L2:", 5⟩⟩)]
    "L1" "L2" ⟨"L1", some ⟨"L1:", 5⟩⟩ ⟨"L2", some ⟨"L2:", 5⟩⟩
    ⟨"L1:", 5⟩ ⟨"L2:", 5⟩ (by decide) (by decide) (by decide) (by decide)
    (by decide) (by decide)).1

/-- Claim C2 (code bug): with labels `L1` (line 1) and `L2` (line 2) both
defined before the first op (line 3), the generator binds only `L1` before
that op; `L2` is bound before the second op at ops-segment offset 2, not at
offset 0 — the claim (and spec §4.4) say both labels bind to offset 0. -/
theorem c2_label_binding_bug :
    (generate_ops_bytes (fun _ => 0)
        [⟨7, [Param.DataReg 0], "", "inc d0", 3⟩,
         ⟨7, [Param.DataReg 1], "", "inc d1", 4⟩] 9
        [("L1", ⟨"L1", some ⟨"L1:", 1⟩⟩),
         ("L2", ⟨"L2", some ⟨"L2:", 2⟩⟩)]).map
        (fun o => (lookupA o.label_addresses "L1", lookupA o.label_addresses "L2")) =
      some (some 0, some 2) ∧ (2 : Nat) ≠ 0 := by
  constructor
  · rfl
  · decide

/-- Counterexample to claim C3: a program whose single op references the
undefined string key `foo`; assembly succeeds (no "undefined symbol" error)
and the two placeholder bytes remain zero. -/
theorem c3_missing_symbol_counterexample :
    generate_byte_code 0 0 0 65535 65535 (fun _ => 1)
        ⟨[97], [98], [⟨1, [Param.StrKey "foo"], "", "prts foo", 0⟩],
         [], [], []⟩ =
      some (.ok [0, 0, 0, 1, 97, 1, 98, 0, 3, 1, 0, 0, 0, 0]) := by
  rfl

/-- Counterexample to claim C7: the line `=abc` has an empty key after
trimming, which does not match `[A-Za-z0-9_]+` (one or more characters),
yet `compile_strings` accepts it and emits the entry under the empty key. -/
theorem c7_empty_key_counterexample :
    compile_strings [['=', 'a', 'b', 'c'], opsMarker] false =
      CompRes.ok [("", 0)] [3, 97, 98, 99] := by
  decide

/-- Counterexample to claim C8: `x0FF` is `x` followed by three hex digits,
which the claim says must fail, yet `parse_number` accepts it (the
underlying `u8::from_str_radix` only rejects on overflow past 255). -/
theorem c8_hex_counterexample :
    parse_number ['x', '0', 'F', 'F'] = some (Param.Number 255) := by
  decide

theorem digitsVal_isSome_eq (r : Nat) (l : List Char) (acc : Nat) :
    (digitsVal r l acc).isSome = l.all (fun c => (digitVal r c).isSome) := by
  induction l generalizing acc with
  | nil => simp [digitsVal]
  | cons c rest ih =>
    rw [digitsVal]
    cases hd : digitVal r c with
    | none => simp [hd]
    | some d => simp [hd, ih]

theorem digitsVal_of_all (r : Nat) (l : List Char) (acc : Nat)
    (h : l.all (fun c => (digitVal r c).isSome) = true) :
    digitsVal r l acc =
      some (l.foldl (fun a c => a * r + (digitVal r c).getD 0) acc) := by
  induction l generalizing acc with
  | nil => simp [digitsVal]
  | cons c rest ih =>
    simp only [List.all_cons, Bool.and_eq_true] at h
    rw [digitsVal]
    cases hd : digitVal r c with
    | none => rw [hd] at h; cases h.1
    | some d =>
      simp only [List.foldl_cons, hd, Option.getD_some]
      exact ih _ h.2

theorem isSome_map_pn (o : Option Nat) :
    (Option.map Param.Number o).isSome = o.isSome := by
  cases o <;> rfl

theorem fromStrRadix_isSome_eq (r : Nat) (s : List Char) :
    (fromStrRadixU8 r s).isSome = radixOkB r s := by
  rw [fromStrRadixU8, radixOkB]
  cases hsp : stripPlus s with
  | nil => simp
  | cons c rest =>
    simp only [List.isEmpty_cons, Bool.not_false, Bool.true_and, if_false,
      Bool.false_eq_true]
    by_cases hall : (c :: rest).all (fun c => (digitVal r c).isSome) = true
    · rw [digitsVal_of_all r _ 0 hall]
      simp only [hall, Bool.true_and, valOf, List.foldl_cons]
      split
      · rename_i hss
        simp only [Nat.zero_mul, Nat.zero_add] at hss
        simp [hss]
      · rename_i hss
        simp only [Nat.zero_mul, Nat.zero_add] at hss
        simp [hss]
    · have hcon : (digitsVal r (c :: rest) 0).isSome = false := by
        rw [digitsVal_isSome_eq]
        exact Bool.not_eq_true _ ▸ hall
      cases hdv : digitsVal r (c :: rest) 0 with
      | none =>
        simp [Bool.not_eq_true _ ▸ hall]
      | some v => rw [hdv] at hcon; simp at hcon

/-- Claim C8 (amended): `parse_number` succeeds exactly on: `x` followed by
an optional `+` and one or more hex digits whose value is at most 255 (so
more than two digits succeed when leading zeros keep the value small);
`b` with total token length 9 whose remainder is an optional `+` and binary
digits with value at most 255; a three-character single-quoted token whose
middle character is ASCII, yielding that character's code point; and
otherwise an optional `+` followed by decimal digits with value at most
255. -/
theorem c8_amended_number_set :
    (∀ s : List Char, (parse_number s).isSome = amendedNumberB s) ∧
    (∀ c : Char, c.toNat < 128 →
      parse_number ['\'', c, '\''] = some (Param.Number c.toNat)) := by
  constructor
  · intro s
    rw [parse_number, amendedNumberB]
    by_cases h1 : s.head? = some 'x'
    · simp only [h1, if_true]
      rw [isSome_map_pn]
      exact fromStrRadix_isSome_eq 16 s.tail
    · simp only [h1, if_false]
      by_cases h2 : s.head? = some 'b'
      · simp only [h2, if_true]
        by_cases h3 : s.length = 9
        · simp only [h3, if_true]
          rw [isSome_map_pn, fromStrRadix_isSome_eq 2 s.tail]
          simp
        · simp [h3]
      · simp only [h2, if_false]
        by_cases h3 : s.length = 3 ∧ s.head? = some '\'' ∧ s.getLast? = some '\''
        · simp only [h3, if_true]
          cases hg : s.get? 1 with
          | none => simp
          | some c => by_cases hc : c.toNat < 128 <;> simp [hc]
        · simp only [h3, if_false]
          rw [isSome_map_pn]
          exact fromStrRadix_isSome_eq 10 s
  · intro c hc
    rw [parse_number]
    simp only [List.head?_cons, Option.some.injEq, List.length_cons,
      List.getLast?_cons_cons, List.getLast?_singleton]
    norm_num
    simp [List.get?, hc]

/-- Witness for C8: the amended characterisation evaluated at the decimal
token `10`, and the character literal clause at the ASCII character `a`. -/
theorem c8_amended_number_set_witness :
    (parse_number ['1', '0']).isSome = amendedNumberB ['1', '0'] ∧
      parse_number ['\'', 'a', '\''] = some (Param.Number 97) :=
  ⟨c8_amended_number_set.1 ['1', '0'],
   c8_amended_number_set.2 'a' (by decide)⟩

theorem strGo_invalidKey_src (keep : Bool) (line : List Char)
    (rest : List (List Char)) (m : List (String × Nat)) (out : List Nat)
    (l' : List Char)
    (h : strGo keep line rest m out = CompRes.err (CompErr.invalidKey l')) :
    ∃ idx, findEq l' = some idx ∧
      (trimChars (l'.take idx)).any (fun c => !(c.isAlphanum || c = '_')) = true := by
  induction rest generalizing line m out with
  | nil =>
    rw [strGo] at h
    by_cases h0 : line = opsMarker
    · rw [if_pos h0] at h
      cases h
    · rw [if_neg h0] at h
      cases hfe : findEq line with
      | none => rw [hfe] at h; cases h
      | some idx =>
        rw [hfe] at h
        simp only at h
        by_cases hkey :
            (trimChars (line.take idx)).any (fun c => !(c.isAlphanum || c = '_')) = true
        · rw [if_pos hkey] at h
          cases h
          exact ⟨idx, hfe, hkey⟩
        · rw [if_neg hkey] at h
          split at h <;> split at h <;>
            first
              | cases h
              | (split at h <;> cases h)
  | cons l ls ih =>
    rw [strGo] at h
    by_cases h0 : line = opsMarker
    · rw [if_pos h0] at h
      cases h
    · rw [if_neg h0] at h
      cases hfe : findEq line with
      | none => rw [hfe] at h; cases h
      | some idx =>
        rw [hfe] at h
        simp only at h
        by_cases hkey :
            (trimChars (line.take idx)).any (fun c => !(c.isAlphanum || c = '_')) = true
        · rw [if_pos hkey] at h
          cases h
          exact ⟨idx, hfe, hkey⟩
        · rw [if_neg hkey] at h
          split at h <;> split at h <;>
            first
              | cases h
              | (split at h <;> first | cases h | exact ih _ _ _ h)

/-- Claim C7 (amended): for a `key=content` line, `compile_strings` rejects
the line with the invalid-key error exactly when the trimmed key contains a
character outside `[A-Za-z0-9_]`; in particular an empty key (which does
not match the claim's `[A-Za-z0-9_]+`, one or more characters) is
accepted. -/
theorem c7_amended_key_check (keep : Bool) (line : List Char)
    (rest : List (List Char)) (m : List (String × Nat)) (out : List Nat)
    (idx : Nat) (hne : line ≠ opsMarker) (hfe : findEq line = some idx) :
    ((trimChars (line.take idx)).any (fun c => !(c.isAlphanum || c = '_')) = true →
       strGo keep line rest m out = CompRes.err (CompErr.invalidKey line)) ∧
    ((trimChars (line.take idx)).any (fun c => !(c.isAlphanum || c = '_')) = false →
       strGo keep line rest m out ≠ CompRes.err (CompErr.invalidKey line)) := by
  constructor
  · intro hkey
    rw [strGo, if_neg hne, hfe]
    simp only
    rw [if_pos hkey]
  · intro hkey hcon
    obtain ⟨idx', hfe', hkey'⟩ := strGo_invalidKey_src keep line rest m out line hcon
    rw [hfe] at hfe'
    cases hfe'
    rw [hkey] at hkey'
    cases hkey'

/-- Witness for C7 at the concrete line `=abc` (empty key): the line is not
rejected with the invalid-key error. -/
theorem c7_amended_key_check_witness :
    strGo false ['=', 'a', 'b', 'c'] [opsMarker] [] [] ≠
      CompRes.err (CompErr.invalidKey ['=', 'a', 'b', 'c']) :=
  (c7_amended_key_check false ['=', 'a', 'b', 'c'] [opsMarker] [] [] 0
    (by decide) (by decide)).2 (by decide)

theorem strGo_ok_length (keep : Bool) (line : List Char)
    (rest : List (List Char)) (m : List (String × Nat)) (out : List Nat)
    (m' : List (String × Nat)) (out' : List Nat)
    (h : strGo keep line rest m out = CompRes.ok m' out') :
    out'.length ≤ max out.length 65790 := by
  induction rest generalizing line m out with
  | nil =>
    rw [strGo] at h
    by_cases h0 : line = opsMarker
    · rw [if_pos h0] at h
      cases h
      exact le_max_left _ _
    · rw [if_neg h0] at h
      cases hfe : findEq line with
      | none => rw [hfe] at h; cases h
      | some idx =>
        rw [hfe] at h
        simp only at h
        repeat' split at h
        all_goals cases h
  | cons l ls ih =>
    rw [strGo] at h
    by_cases h0 : line = opsMarker
    · rw [if_pos h0] at h
      cases h
      exact le_max_left _ _
    · rw [if_neg h0] at h
      cases hfe : findEq line with
      | none => rw [hfe] at h; cases h
      | some idx =>
        rw [hfe] at h
        simp only at h
        by_cases hkey :
            (trimChars (line.take idx)).any (fun c => !(c.isAlphanum || c = '_')) = true
        · rw [if_pos hkey] at h
          cases h
        · rw [if_neg hkey] at h
          set cnt : List Char :=
            if keep = true then List.drop 1 (List.drop idx line)
            else trimChars (List.drop 1 (List.drop idx line)) with hcnt
          by_cases hclen : (contentBytes cnt).length > 255
          · rw [if_pos hclen] at h
            cases h
          · rw [if_neg hclen] at h
            by_cases hout : out.length ≥ 65535
            · rw [if_pos hout] at h
              cases h
            · rw [if_neg hout] at h
              have hb := ih _ _ _ h
              simp only [List.length_append, List.length_cons] at hb
              rcases le_max_iff.mp hb with h1 | h1
              · refine le_max_of_le_right ?_
                simp only [not_lt] at hclen
                simp only [not_le] at hout
                omega
              · exact le_max_of_le_right h1

theorem strGo_aLine_step (l : List Char) (ls : List (List Char))
    (m : List (String × Nat)) (out : List Nat) (h : out.length < 65535) :
    strGo false aLine (l :: ls) m out =
      strGo false l ls (insertA m (String.mk ['a']) (out.length % 65536))
        (out ++ 255 :: contentBytes (List.replicate 255 'b')) := by
  rw [strGo, if_neg (by decide : ¬aLine = opsMarker),
    (by decide : findEq aLine = some 1)]
  simp only [Bool.false_eq_true, if_false]
  rw [if_neg (by decide :
    ¬(trimChars (aLine.take 1)).any (fun c => !(c.isAlphanum || c = '_')) = true)]
  rw [(by decide :
    trimChars (List.drop 1 (List.drop 1 aLine)) = List.replicate 255 'b')]
  rw [if_neg (by decide :
    ¬(contentBytes (List.replicate 255 'b')).length > 255)]
  rw [if_neg (by omega : ¬out.length ≥ 65535)]
  rw [(by decide : String.mk (trimChars (aLine.take 1)) = String.mk ['a'])]
  rw [(by decide : (contentBytes (List.replicate 255 'b')).length % 256 = 255)]

theorem c6_rep (n : Nat) : ∀ (m : List (String × Nat)) (out : List Nat),
    out.length + 256 * n ≤ 65534 →
    compOk (strGo false aLine (List.replicate n aLine ++ [opsMarker]) m out) = true ∧
    compLen (strGo false aLine (List.replicate n aLine ++ [opsMarker]) m out) =
      out.length + 256 * (n + 1) := by
  have hcb : (contentBytes (List.replicate 255 'b')).length = 255 := by decide
  induction n with
  | zero =>
    intro m out hb
    rw [List.replicate, List.nil_append]
    rw [strGo_aLine_step _ _ _ _ (by omega)]
    rw [strGo, if_pos rfl]
    refine ⟨rfl, ?_⟩
    rw [compLen]
    simp only [List.length_append, List.length_cons, hcb]
  | succ k ih =>
    intro m out hb
    rw [List.replicate_succ, List.cons_append]
    rw [strGo_aLine_step _ _ _ _ (by omega)]
    have hlen : (out ++ 255 :: contentBytes (List.replicate 255 'b')).length =
        out.length + 256 := by
      simp only [List.length_append, List.length_cons, hcb]
    have hrec := ih (insertA m (String.mk ['a']) (out.length % 65536))
      (out ++ 255 :: contentBytes (List.replicate 255 'b')) (by rw [hlen]; omega)
    refine ⟨hrec.1, ?_⟩
    rw [hrec.2, hlen]
    ring

/-- Counterexample to claim C6: 256 lines `a=bb…b` (255 content bytes each)
followed by `.ops`; `compile_strings` succeeds and the emitted
string-section total is 65 536 bytes, which the claim says must be
rejected. -/
theorem c6_total_counterexample :
    compOk (compile_strings c6Lines false) = true ∧
      compLen (compile_strings c6Lines false) = 65536 := by
  have hsplit : c6Lines = aLine :: (List.replicate 255 aLine ++ [opsMarker]) := by
    rw [c6Lines, List.replicate_succ, List.cons_append]
  rw [hsplit, compile_strings]
  have := c6_rep 255 [] [] (by simp)
  simpa using this

/-- Claim C6 (amended): `compile_strings` checks the accumulated output
length before emitting each entry and fails only when it is already at
least 65 535; a successful run's emitted total is therefore at most
65 534 + 256 = 65 790 bytes, and totals between 65 536 and 65 790 are
accepted, not rejected. -/
theorem c6_amended_cap (lines : List (List Char)) (keep : Bool)
    (m : List (String × Nat)) (out : List Nat)
    (h : compile_strings lines keep = CompRes.ok m out) :
    out.length ≤ 65790 := by
  cases lines with
  | nil => rw [compile_strings] at h; cases h
  | cons l ls =>
    rw [compile_strings] at h
    have := strGo_ok_length keep l ls [] [] m out h
    simpa using this

/-- Witness for C6 (amended) at a concrete input: `a=b` then `.ops`
compiles to two bytes, within the 65 790 bound. -/
theorem c6_amended_cap_witness :
    compile_strings [['a', '=', 'b'], opsMarker] false =
        CompRes.ok [("a", 0)] [1, 98] ∧
      ([1, (98 : Nat)] : List Nat).length ≤ 65790 :=
  ⟨by decide,
   c6_amended_cap [['a', '=', 'b'], opsMarker] false [("a", 0)] [1, 98] (by decide)⟩

theorem lookupA_mem {α : Type} (m : List (String × α)) (k : String) (v : α)
    (h : lookupA m k = some v) : (k, v) ∈ m := by
  induction m with
  | nil => cases h
  | cons p rest ih =>
    obtain ⟨k0, v0⟩ := p
    rw [lookupA] at h
    by_cases he : k0 = k
    · rw [if_pos he] at h
      cases h
      exact he ▸ List.mem_cons_self _ _
    · rw [if_neg he] at h
      exact List.mem_cons_of_mem _ (ih h)

theorem writeAddr_some (bytes : List Nat) (o a : Nat) (h : o + 1 < bytes.length) :
    writeAddr bytes o a =
      some ((bytes.set o (a % 65536 / 256)).set (o + 1) (a % 256)) := by
  have h1 : o < bytes.length := by omega
  simp [writeAddr, setByte, h, h1, List.length_set]

theorem writeAll_some (offs : List Nat) (bytes : List Nat) (a : Nat)
    (h : ∀ o ∈ offs, o + 1 < bytes.length) :
    ∃ b, writeAll bytes offs a = some b ∧ b.length = bytes.length ∧
      ∀ j, (∀ o ∈ offs, j ≠ o ∧ j ≠ o + 1) → b[j]? = bytes[j]? := by
  induction offs generalizing bytes with
  | nil => exact ⟨bytes, rfl, rfl, fun j _ => rfl⟩
  | cons o0 rest ih =>
    have hb0 : o0 + 1 < bytes.length := h o0 (List.mem_cons_self _ _)
    have hw := writeAddr_some bytes o0 a hb0
    have hlen : ((bytes.set o0 (a % 65536 / 256)).set (o0 + 1) (a % 256)).length =
        bytes.length := by
      rw [List.length_set, List.length_set]
    obtain ⟨b, hb, hbl, hbu⟩ := ih ((bytes.set o0 (a % 65536 / 256)).set (o0 + 1) (a % 256))
      (fun o ho => by rw [hlen]; exact h o (List.mem_cons_of_mem _ ho))
    refine ⟨b, ?_, by rw [hbl, hlen], ?_⟩
    · rw [writeAll, hw]
      exact hb
    · intro j hj
      rw [hbu j (fun o ho => hj o (List.mem_cons_of_mem _ ho))]
      have hj0 := hj o0 (List.mem_cons_self _ _)
      rw [List.getElem?_set_ne (by omega), List.getElem?_set_ne (by omega)]

theorem update_addresses_some (sources : List (String × Nat))
    (bytes : List Nat) (targets : List (String × List Nat))
    (h : ∀ p ∈ sources, ∀ o ∈ offsetsIn targets (p : String × Nat).1,
      o + 1 < bytes.length) :
    ∃ b, update_addresses bytes targets sources = some b ∧
      b.length = bytes.length ∧
      ∀ j, (∀ p ∈ sources, ∀ o ∈ offsetsIn targets (p : String × Nat).1,
          j ≠ o ∧ j ≠ o + 1) →
        b[j]? = bytes[j]? := by
  induction sources generalizing bytes with
  | nil => exact ⟨bytes, rfl, rfl, fun j _ => rfl⟩
  | cons p rest ih =>
    obtain ⟨k0, a0⟩ := p
    cases hlk : lookupA targets k0 with
    | none =>
      obtain ⟨b, hb, hbl, hbu⟩ := ih bytes
        (fun q hq o ho => h q (List.mem_cons_of_mem _ hq) o ho)
      refine ⟨b, ?_, hbl, fun j hj =>
        hbu j (fun q hq o ho => hj q (List.mem_cons_of_mem _ hq) o ho)⟩
      simp only [update_addresses, hlk]
      exact hb
    | some offs =>
      have hoffs : offsetsIn targets k0 = offs := by
        rw [offsetsIn, hlk]
        rfl
      obtain ⟨b0, hb0, hb0l, hb0u⟩ := writeAll_some offs bytes a0
        (fun o ho => h (k0, a0) (List.mem_cons_self _ _) o (hoffs ▸ ho))
      obtain ⟨b, hb, hbl, hbu⟩ := ih b0
        (fun q hq o ho => hb0l ▸ h q (List.mem_cons_of_mem _ hq) o ho)
      refine ⟨b, ?_, by rw [hbl, hb0l], ?_⟩
      · simp only [update_addresses, hlk, hb0]
        exact hb
      · intro j hj
        rw [hbu j (fun q hq o ho => hj q (List.mem_cons_of_mem _ hq) o ho)]
        exact hb0u j (fun o ho =>
          hj (k0, a0) (List.mem_cons_self _ _) o (hoffs ▸ ho))

theorem writeAddr_read (bytes : List Nat) (o a : Nat) (h : o + 1 < bytes.length)
    (b : List Nat) (hw : writeAddr bytes o a = some b) :
    b[o]? = some (a % 65536 / 256) ∧ b[o + 1]? = some (a % 256) := by
  rw [writeAddr_some bytes o a h] at hw
  cases hw
  constructor
  · rw [List.getElem?_set_ne (by omega)]
    exact List.getElem?_set_self (by omega)
  · exact List.getElem?_set_self (by rw [List.length_set]; omega)

theorem writeAll_preserve (offs : List Nat) (bytes : List Nat) (a O hi lo : Nat)
    (hin : ∀ o ∈ offs, o + 1 < bytes.length)
    (hall : ∀ o ∈ offs, (o + 2 ≤ O ∨ O + 2 ≤ o) ∨
      (o = O ∧ a % 65536 / 256 = hi ∧ a % 256 = lo))
    (hv : bytes[O]? = some hi ∧ bytes[O + 1]? = some lo)
    (b : List Nat) (hw : writeAll bytes offs a = some b) :
    b[O]? = some hi ∧ b[O + 1]? = some lo := by
  induction offs generalizing bytes with
  | nil =>
    rw [writeAll] at hw
    cases hw
    exact hv
  | cons o0 rest ih =>
    have h0 : o0 + 1 < bytes.length := hin o0 (List.mem_cons_self _ _)
    rw [writeAll, writeAddr_some bytes o0 a h0] at hw
    simp only at hw
    set b0 := (bytes.set o0 (a % 65536 / 256)).set (o0 + 1) (a % 256) with hb0
    have hlen : b0.length = bytes.length := by
      rw [hb0, List.length_set, List.length_set]
    have hv0 : b0[O]? = some hi ∧ b0[O + 1]? = some lo := by
      rcases hall o0 (List.mem_cons_self _ _) with hd | ⟨he, hhi, hlo⟩
      · constructor
        · rw [hb0, List.getElem?_set_ne (by omega), List.getElem?_set_ne (by omega)]
          exact hv.1
        · rw [hb0, List.getElem?_set_ne (by omega), List.getElem?_set_ne (by omega)]
          exact hv.2
      · subst he
        constructor
        · rw [hb0, List.getElem?_set_ne (by omega), hhi]
          exact List.getElem?_set_self (by omega)
        · rw [hb0, hlo]
          exact List.getElem?_set_self (by rw [List.length_set]; omega)
    exact ih b0 (fun o ho => hlen ▸ hin o (List.mem_cons_of_mem _ ho))
      (fun o ho => hall o (List.mem_cons_of_mem _ ho)) hv0 hw

theorem writeAll_read (offs : List Nat) (bytes : List Nat) (a O : Nat)
    (hin : ∀ o ∈ offs, o + 1 < bytes.length)
    (hall : ∀ o ∈ offs, (o + 2 ≤ O ∨ O + 2 ≤ o) ∨ o = O)
    (hO : O ∈ offs)
    (b : List Nat) (hw : writeAll bytes offs a = some b) :
    b[O]? = some (a % 65536 / 256) ∧ b[O + 1]? = some (a % 256) := by
  induction offs generalizing bytes with
  | nil => simp at hO
  | cons o0 rest ih =>
    have h0 : o0 + 1 < bytes.length := hin o0 (List.mem_cons_self _ _)
    rw [writeAll, writeAddr_some bytes o0 a h0] at hw
    simp only at hw
    set b0 := (bytes.set o0 (a % 65536 / 256)).set (o0 + 1) (a % 256) with hb0
    have hlen : b0.length = bytes.length := by
      rw [hb0, List.length_set, List.length_set]
    by_cases he : o0 = O
    · subst he
      have hv0 : b0[o0]? = some (a % 65536 / 256) ∧ b0[o0 + 1]? = some (a % 256) := by
        constructor
        · rw [hb0, List.getElem?_set_ne (by omega)]
          exact List.getElem?_set_self (by omega)
        · rw [hb0]
          exact List.getElem?_set_self (by rw [List.length_set]; omega)
      exact writeAll_preserve rest b0 a o0 _ _
        (fun o ho => hlen ▸ hin o (List.mem_cons_of_mem _ ho))
        (fun o ho => by
          rcases hall o (List.mem_cons_of_mem _ ho) with hd | he2
          · exact Or.inl hd
          · exact Or.inr ⟨he2, rfl, rfl⟩)
        hv0 b hw
    · have hO' : O ∈ rest := by
        rcases List.mem_cons.mp hO with h1 | h1
        · exact absurd h1.symm he
        · exact h1
      exact ih b0 (fun o ho => hlen ▸ hin o (List.mem_cons_of_mem _ ho))
        (fun o ho => hall o (List.mem_cons_of_mem _ ho)) hO' hw

theorem update_addresses_preserve (sources : List (String × Nat))
    (bytes : List Nat) (targets : List (String × List Nat)) (O a : Nat)
    (hin : ∀ p ∈ sources, ∀ o ∈ offsetsIn targets (p : String × Nat).1,
      o + 1 < bytes.length)
    (hall : ∀ p ∈ sources, ∀ o ∈ offsetsIn targets (p : String × Nat).1,
      (o + 2 ≤ O ∨ O + 2 ≤ o) ∨ (o = O ∧ (p : String × Nat).2 = a))
    (hv : bytes[O]? = some (a % 65536 / 256) ∧ bytes[O + 1]? = some (a % 256))
    (b : List Nat) (hw : update_addresses bytes targets sources = some b) :
    b[O]? = some (a % 65536 / 256) ∧ b[O + 1]? = some (a % 256) := by
  induction sources generalizing bytes with
  | nil =>
    rw [update_addresses] at hw
    cases hw
    exact hv
  | cons p rest ih =>
    obtain ⟨k0, a0⟩ := p
    cases hlk : lookupA targets k0 with
    | none =>
      simp only [update_addresses, hlk] at hw
      exact ih bytes (fun q hq o ho => hin q (List.mem_cons_of_mem _ hq) o ho)
        (fun q hq o ho => hall q (List.mem_cons_of_mem _ hq) o ho) hv hw
    | some offs =>
      have hoffs : offsetsIn targets k0 = offs := by
        rw [offsetsIn, hlk]
        rfl
      simp only [update_addresses, hlk] at hw
      cases hwa : writeAll bytes offs a0 with
      | none => rw [hwa] at hw; cases hw
      | some b0 =>
        rw [hwa] at hw
        have hb0l' : b0.length = bytes.length := by
          obtain ⟨bb, hbb, hbbl, _⟩ := writeAll_some offs bytes a0
            (fun o ho => hin (k0, a0) (List.mem_cons_self _ _) o (hoffs ▸ ho))
          rw [hwa] at hbb
          cases hbb
          exact hbbl
        have hv0 := writeAll_preserve offs bytes a0 O (a % 65536 / 256) (a % 256)
          (fun o ho => hin (k0, a0) (List.mem_cons_self _ _) o (hoffs ▸ ho))
          (fun o ho => by
            rcases hall (k0, a0) (List.mem_cons_self _ _) o (hoffs ▸ ho) with hd | ⟨he, hva⟩
            · exact Or.inl hd
            · exact Or.inr ⟨he, by rw [show a0 = a from hva], by rw [show a0 = a from hva]⟩)
          hv b0 hwa
        exact ih b0 (fun q hq o ho => hb0l' ▸ hin q (List.mem_cons_of_mem _ hq) o ho)
          (fun q hq o ho => hall q (List.mem_cons_of_mem _ hq) o ho) hv0 hw

theorem update_addresses_read (sources : List (String × Nat))
    (bytes : List Nat) (targets : List (String × List Nat)) (O : Nat)
    (k : String) (a : Nat)
    (hin : ∀ p ∈ sources, ∀ o ∈ offsetsIn targets (p : String × Nat).1,
      o + 1 < bytes.length)
    (hmem : (k, a) ∈ sources) (hO : O ∈ offsetsIn targets k)
    (hall : ∀ p ∈ sources, ∀ o ∈ offsetsIn targets (p : String × Nat).1,
      (o + 2 ≤ O ∨ O + 2 ≤ o) ∨ (o = O ∧ (p : String × Nat).2 = a))
    (b : List Nat) (hw : update_addresses bytes targets sources = some b) :
    b[O]? = some (a % 65536 / 256) ∧ b[O + 1]? = some (a % 256) := by
  induction sources generalizing bytes with
  | nil => simp at hmem
  | cons p rest ih =>
    obtain ⟨k0, a0⟩ := p
    by_cases hhd : (k0, a0) = (k, a)
    · cases hhd
      cases hlk : lookupA targets k with
      | none =>
        rw [offsetsIn, hlk] at hO
        simp at hO
      | some offs =>
        have hoffs : offsetsIn targets k = offs := by
          rw [offsetsIn, hlk]
          rfl
        simp only [update_addresses, hlk] at hw
        cases hwa : writeAll bytes offs a with
        | none => rw [hwa] at hw; cases hw
        | some b0 =>
          rw [hwa] at hw
          have hb0l : b0.length = bytes.length := by
            obtain ⟨bb, hbb, hbbl, _⟩ := writeAll_some offs bytes a
              (fun o ho => hin (k, a) (List.mem_cons_self _ _) o (hoffs ▸ ho))
            rw [hwa] at hbb
            cases hbb
            exact hbbl
          have hv0 := writeAll_read offs bytes a O
            (fun o ho => hin (k, a) (List.mem_cons_self _ _) o (hoffs ▸ ho))
            (fun o ho => by
              rcases hall (k, a) (List.mem_cons_self _ _) o (hoffs ▸ ho) with hd | ⟨he, _⟩
              · exact Or.inl hd
              · exact Or.inr he)
            (hoffs ▸ hO) b0 hwa
          exact update_addresses_preserve rest b0 targets O a
            (fun q hq o ho => hb0l ▸ hin q (List.mem_cons_of_mem _ hq) o ho)
            (fun q hq o ho => hall q (List.mem_cons_of_mem _ hq) o ho) hv0 b hw
    · have hmem' : (k, a) ∈ rest := by
        rcases List.mem_cons.mp hmem with h1 | h1
        · exact absurd h1.symm hhd
        · exact h1
      cases hlk : lookupA targets k0 with
      | none =>
        simp only [update_addresses, hlk] at hw
        exact ih bytes (fun q hq o ho => hin q (List.mem_cons_of_mem _ hq) o ho)
          hmem' (fun q hq o ho => hall q (List.mem_cons_of_mem _ hq) o ho) hw
      | some offs =>
        have hoffs : offsetsIn targets k0 = offs := by
          rw [offsetsIn, hlk]
          rfl
        simp only [update_addresses, hlk] at hw
        cases hwa : writeAll bytes offs a0 with
        | none => rw [hwa] at hw; cases hw
        | some b0 =>
          rw [hwa] at hw
          have hb0l : b0.length = bytes.length := by
            obtain ⟨bb, hbb, hbbl, _⟩ := writeAll_some offs bytes a0
              (fun o ho => hin (k0, a0) (List.mem_cons_self _ _) o (hoffs ▸ ho))
            rw [hwa] at hbb
            cases hbb
            exact hbbl
          exact ih b0 (fun q hq o ho => hb0l ▸ hin q (List.mem_cons_of_mem _ hq) o ho)
            hmem' (fun q hq o ho => hall q (List.mem_cons_of_mem _ hq) o ho) hw

theorem setByte_length (bytes : List Nat) (i v : Nat) (b : List Nat)
    (h : setByte bytes i v = some b) : b.length = bytes.length := by
  rw [setByte] at h
  split at h
  · cases h
    rw [List.length_set]
  · cases h

theorem writeAddr_length (bytes : List Nat) (o a : Nat) (b : List Nat)
    (h : writeAddr bytes o a = some b) : b.length = bytes.length := by
  rw [writeAddr] at h
  cases h1 : setByte bytes o (a % 65536 / 256) with
  | none => rw [h1] at h; cases h
  | some b0 =>
    rw [h1] at h
    simp only at h
    rw [setByte_length _ _ _ _ h, setByte_length _ _ _ _ h1]

theorem writeAll_length (offs : List Nat) (bytes : List Nat) (a : Nat)
    (b : List Nat) (h : writeAll bytes offs a = some b) :
    b.length = bytes.length := by
  induction offs generalizing bytes with
  | nil =>
    rw [writeAll] at h
    cases h
    rfl
  | cons o0 rest ih =>
    rw [writeAll] at h
    cases h1 : writeAddr bytes o0 a with
    | none => rw [h1] at h; cases h
    | some b0 =>
      rw [h1] at h
      simp only at h
      rw [ih b0 h, writeAddr_length _ _ _ _ h1]

theorem update_addresses_length (sources : List (String × Nat))
    (bytes : List Nat) (targets : List (String × List Nat)) (b : List Nat)
    (h : update_addresses bytes targets sources = some b) :
    b.length = bytes.length := by
  induction sources generalizing bytes with
  | nil =>
    rw [update_addresses] at h
    cases h
    rfl
  | cons p rest ih =>
    obtain ⟨k0, a0⟩ := p
    cases hlk : lookupA targets k0 with
    | none =>
      simp only [update_addresses, hlk] at h
      exact ih bytes h
    | some offs =>
      simp only [update_addresses, hlk] at h
      cases hwa : writeAll bytes offs a0 with
      | none => rw [hwa] at h; cases h
      | some b0 =>
        rw [hwa] at h
        simp only at h
        rw [ih b0 h, writeAll_length _ _ _ _ hwa]

theorem rawTape_length (h1 h2 pv : Nat) (pm : ProgramModel) (opsOut : OpsOutput)
    (sb db : List Nat) :
    (rawTape h1 h2 pv pm opsOut sb db).length =
      9 + pm.name.length + pm.version.length + opsOut.bytes.length +
        sb.length + db.length := by
  simp [rawTape, u16be]
  ring

theorem generate_byte_code_decomp (h1 h2 pv maxS maxD : Nat) (gabo : Nat → Nat)
    (pm : ProgramModel) (tape : List Nat)
    (h : generate_byte_code h1 h2 pv maxS maxD gabo pm = some (Except.ok tape)) :
    ∃ opsOut sb sa db da o1 o2,
      generate_ops_bytes gabo pm.ops (tapePrefixLen pm) pm.labels = some opsOut ∧
      generate_string_bytes maxS pm.strings = Except.ok (sb, sa) ∧
      generate_data_bytes maxD pm.data = Except.ok (db, da) ∧
      update_addresses (rawTape h1 h2 pv pm opsOut sb db)
        opsOut.string_targets sa = some o1 ∧
      update_addresses o1 opsOut.data_targets da = some o2 ∧
      update_addresses o2 opsOut.label_targets opsOut.label_addresses =
        some tape := by
  simp only [generate_byte_code] at h
  rw [show ([h1, h2, pv, pm.name.length % 256] ++ pm.name ++
      [pm.version.length % 256] ++ pm.version).length + 2 = tapePrefixLen pm by
    simp [tapePrefixLen]
    ring] at h
  cases hops : generate_ops_bytes gabo pm.ops (tapePrefixLen pm) pm.labels with
  | none => rw [hops] at h; cases h
  | some opsOut =>
    rw [hops] at h
    simp only at h
    cases hstr : generate_string_bytes maxS pm.strings with
    | error e => rw [hstr] at h; cases h
    | ok sp =>
      obtain ⟨sb, sa⟩ := sp
      rw [hstr] at h
      simp only at h
      cases hdat : generate_data_bytes maxD pm.data with
      | error e => rw [hdat] at h; cases h
      | ok dp =>
        obtain ⟨db, da⟩ := dp
        rw [hdat] at h
        simp only at h
        rw [show [h1, h2, pv, pm.name.length % 256] ++ pm.name ++
            [pm.version.length % 256] ++ pm.version ++ u16be opsOut.bytes.length ++
            opsOut.bytes ++ u16be sb.length ++ sb ++ db =
            rawTape h1 h2 pv pm opsOut sb db from rfl] at h
        cases hu1 : update_addresses (rawTape h1 h2 pv pm opsOut sb db)
            opsOut.string_targets sa with
        | none => rw [hu1] at h; cases h
        | some o1 =>
          rw [hu1] at h
          simp only at h
          cases hu2 : update_addresses o1 opsOut.data_targets da with
          | none => rw [hu2] at h; cases h
          | some o2 =>
            rw [hu2] at h
            simp only at h
            cases hu3 : update_addresses o2 opsOut.label_targets
                opsOut.label_addresses with
            | none => rw [hu3] at h; cases h
            | some o3 =>
              rw [hu3] at h
              simp only at h
              cases h
              exact ⟨opsOut, sb, sa, db, da, o1, o2, rfl, rfl, rfl, hu1, hu2, hu3⟩

/-- Claim C3 (amended): back-patching never reports an error.
`update_addresses` iterates the address table; a recorded target whose
symbol is missing from the table is silently skipped, leaving its two
placeholder bytes unchanged (they are outside every performed write), and a
symbol present in the table but never used contributes no writes. As long
as every performed write is in bounds the patch step succeeds, preserves
the tape length, and changes no byte outside the written target sites. -/
theorem c3_amended_silent_skip (bytes : List Nat)
    (targets : List (String × List Nat)) (sources : List (String × Nat))
    (hin : ∀ p ∈ sources, ∀ o ∈ offsetsIn targets (p : String × Nat).1,
      o + 1 < bytes.length) :
    ∃ b, update_addresses bytes targets sources = some b ∧
      b.length = bytes.length ∧
      ∀ j, (∀ p ∈ sources, ∀ o ∈ offsetsIn targets (p : String × Nat).1,
          j ≠ o ∧ j ≠ o + 1) →
        b[j]? = bytes[j]? :=
  update_addresses_some sources bytes targets hin

/-- Witness for C3 (amended): a three-byte ops image with a recorded target
for the undefined symbol `foo` and an empty address table — the patch step
succeeds and no byte changes. -/
theorem c3_amended_silent_skip_witness :
    ∃ b, update_addresses [1, 0, 0] [("foo", [1])] [] = some b ∧
      b.length = ([1, 0, 0] : List Nat).length ∧
      ∀ j, (∀ p ∈ ([] : List (String × Nat)),
          ∀ o ∈ offsetsIn [("foo", [1])] (p : String × Nat).1,
          j ≠ o ∧ j ≠ o + 1) →
        b[j]? = ([1, 0, 0] : List Nat)[j]? :=
  c3_amended_silent_skip [1, 0, 0] [("foo", [1])] [] (by simp)

/-- Claim C4: for a program that generates successfully and satisfies the
data-model size invariants of spec §3 (name and version at most 255 bytes,
ops and strings segments fitting in a `u16`), the emitted tape length is
`9 + nameLen + verLen + opsLen + strLen + dataLen`, where `nameLen`/`verLen`
are the one-byte length-prefix values (`length % 256`), `opsLen`/`strLen`
the two-byte big-endian field values (`length % 65536`), and `dataLen` the
data segment's size. -/
theorem c4_tape_length (h1 h2 pv maxS maxD : Nat) (gabo : Nat → Nat)
    (pm : ProgramModel) (tape : List Nat) (opsOut : OpsOutput)
    (sb db : List Nat) (sa da : List (String × Nat))
    (hops : generate_ops_bytes gabo pm.ops (tapePrefixLen pm) pm.labels = some opsOut)
    (hstr : generate_string_bytes maxS pm.strings = Except.ok (sb, sa))
    (hdat : generate_data_bytes maxD pm.data = Except.ok (db, da))
    (hgen : generate_byte_code h1 h2 pv maxS maxD gabo pm = some (Except.ok tape))
    (hname : pm.name.length < 256) (hver : pm.version.length < 256)
    (hopsb : opsOut.bytes.length < 65536) (hsb : sb.length < 65536) :
    tape.length = 9 + (pm.name.length % 256) + (pm.version.length % 256) +
      (opsOut.bytes.length % 65536) + (sb.length % 65536) + db.length := by
  obtain ⟨opsOut', sb', sa', db', da', o1, o2, hops', hstr', hdat', hu1, hu2, hu3⟩ :=
    generate_byte_code_decomp h1 h2 pv maxS maxD gabo pm tape hgen
  rw [hops] at hops'
  cases hops'
  rw [hstr] at hstr'
  cases hstr'
  rw [hdat] at hdat'
  cases hdat'
  have hl3 := update_addresses_length _ _ _ _ hu3
  have hl2 := update_addresses_length _ _ _ _ hu2
  have hl1 := update_addresses_length _ _ _ _ hu1
  rw [hl3, hl2, hl1, rawTape_length]
  rw [Nat.mod_eq_of_lt hname, Nat.mod_eq_of_lt hver, Nat.mod_eq_of_lt hopsb,
    Nat.mod_eq_of_lt hsb]

/-- Witness for C4 at the header-only program `("Test Prog", "1.0")`: the
tape is 21 bytes, `9 + 9 + 3 + 0 + 0 + 0`. -/
theorem c4_tape_length_witness :
    ([9, 9, 9, 9, 84, 101, 115, 116, 32, 80, 114, 111, 103, 3, 49, 46, 48,
      0, 0, 0, 0] : List Nat).length =
      9 + (([84, 101, 115, 116, 32, 80, 114, 111, 103] : List Nat).length % 256) +
        (([49, 46, 48] : List Nat).length % 256) +
        ((emptyOpsOutput.bytes.length) % 65536) +
        (([] : List Nat).length % 65536) + ([] : List Nat).length :=
  c4_tape_length 9 9 9 65535 65535 (fun _ => 0)
    ⟨[84, 101, 115, 116, 32, 80, 114, 111, 103], [49, 46, 48], [], [], [], []⟩
    [9, 9, 9, 9, 84, 101, 115, 116, 32, 80, 114, 111, 103, 3, 49, 46, 48, 0, 0, 0, 0]
    emptyOpsOutput [] [] [] []
    (by rfl) (by rfl) (by rfl) (by rfl)
    (by decide) (by decide) (by decide) (by decide)

theorem insOrd_mem {α : Type} (x z : String × α) (l : List (String × α))
    (h : z ∈ insOrd x l) : z = x ∨ z ∈ l := by
  induction l with
  | nil => simpa [insOrd] using h
  | cons y rest ih =>
    rw [insOrd] at h
    split at h
    · rcases List.mem_cons.mp h with h1 | h1
      · exact Or.inl h1
      · exact Or.inr h1
    · rcases List.mem_cons.mp h with h1 | h1
      · exact Or.inr (h1 ▸ List.mem_cons_self _ _)
      · rcases ih h1 with h2 | h2
        · exact Or.inl h2
        · exact Or.inr (List.mem_cons_of_mem _ h2)

theorem insOrd_perm {α : Type} (x : String × α) (l : List (String × α)) :
    (insOrd x l).Perm (x :: l) := by
  induction l with
  | nil => simp [insOrd]
  | cons y rest ih =>
    rw [insOrd]
    split
    · exact List.Perm.refl _
    · exact (List.Perm.cons y ih).trans (List.Perm.swap x y rest)

theorem sortByKey_perm {α : Type} (l : List (String × α)) :
    (sortByKey l).Perm l := by
  induction l with
  | nil => simp [sortByKey]
  | cons x rest ih =>
    rw [sortByKey]
    exact (insOrd_perm x (sortByKey rest)).trans (List.Perm.cons x ih)

theorem charListLt_irrefl (a : List Char) : charListLt a a = false := by
  induction a with
  | nil => rfl
  | cons x xs ih => simp [charListLt, ih]

theorem charListLt_trans (a b c : List Char) (h1 : charListLt a b = true)
    (h2 : charListLt b c = true) : charListLt a c = true := by
  induction a generalizing b c with
  | nil =>
    cases c with
    | nil =>
      cases b with
      | nil => cases h1
      | cons y ys => cases h2
    | cons z zs => rfl
  | cons x xs ih =>
    cases b with
    | nil => cases h1
    | cons y ys =>
      cases c with
      | nil => cases h2
      | cons z zs =>
        rw [charListLt] at h1 h2 ⊢
        by_cases hxy : x < y
        · by_cases hyz : y < z
          · rw [if_pos (lt_trans hxy hyz)]
          · rw [if_neg hyz] at h2
            by_cases hzy : z < y
            · rw [if_pos hzy] at h2
              cases h2
            · rw [if_neg hzy] at h2
              have hyz' : y = z := le_antisymm (le_of_not_lt hzy) (le_of_not_lt hyz)
              rw [if_pos (hyz' ▸ hxy)]
        · rw [if_neg hxy] at h1
          by_cases hyx : y < x
          · rw [if_pos hyx] at h1
            cases h1
          · rw [if_neg hyx] at h1
            have hxy' : x = y := le_antisymm (le_of_not_lt hyx) (le_of_not_lt hxy)
            subst hxy'
            by_cases hxz : x < z
            · rw [if_pos hxz]
            · rw [if_neg hxz] at h2 ⊢
              by_cases hzx : z < x
              · rw [if_pos hzx] at h2
                cases h2
              · rw [if_neg hzx] at h2 ⊢
                exact ih ys zs h1 h2

theorem charListLt_eq_of_not (a b : List Char) (h1 : charListLt a b = false)
    (h2 : charListLt b a = false) : a = b := by
  induction a generalizing b with
  | nil =>
    cases b with
    | nil => rfl
    | cons y ys => cases h1
  | cons x xs ih =>
    cases b with
    | nil => cases h2
    | cons y ys =>
      rw [charListLt] at h1 h2
      by_cases hxy : x < y
      · rw [if_pos hxy] at h1
        cases h1
      · rw [if_neg hxy] at h1
        by_cases hyx : y < x
        · rw [if_pos hyx] at h2
          cases h2
        · rw [if_neg hyx] at h1
          rw [if_neg hyx, if_neg hxy] at h2
          have hxy' : x = y := le_antisymm (le_of_not_lt hyx) (le_of_not_lt hxy)
          rw [hxy', ih ys h1 h2]

theorem charListLt_asymm (a b : List Char) (h : charListLt a b = true) :
    charListLt b a = false := by
  by_contra hc
  have hba : charListLt b a = true := by
    cases hb : charListLt b a
    · exact absurd hb hc
    · rfl
  have := charListLt_trans a b a h hba
  rw [charListLt_irrefl] at this
  cases this

theorem insOrd_sorted {α : Type} (x : String × α) (l : List (String × α))
    (h : List.Pairwise
      (fun (p q : String × α) => charListLt q.1.data p.1.data = false) l) :
    List.Pairwise
      (fun (p q : String × α) => charListLt q.1.data p.1.data = false)
      (insOrd x l) := by
  induction l with
  | nil => simp [insOrd]
  | cons y rest ih =>
    rw [List.pairwise_cons] at h
    rw [insOrd]
    split
    · rename_i hlt
      refine List.pairwise_cons.mpr ⟨?_, List.pairwise_cons.mpr h⟩
      intro z hz
      rcases List.mem_cons.mp hz with h1 | h1
      · rw [h1]
        exact charListLt_asymm _ _ hlt
      · cases hzx : charListLt z.1.data x.1.data
        · rfl
        · exfalso
          have := charListLt_trans _ _ _ hzx hlt
          rw [h.1 z h1] at this
          cases this
    · rename_i hnlt
      refine List.pairwise_cons.mpr ⟨?_, ih h.2⟩
      intro z hz
      rcases insOrd_mem x z rest hz with h1 | h1
      · rw [h1]
        exact Bool.not_eq_true _ ▸ hnlt
      · exact h.1 z h1

theorem sortByKey_sorted {α : Type} (l : List (String × α)) :
    List.Pairwise
      (fun (p q : String × α) => charListLt q.1.data p.1.data = false)
      (sortByKey l) := by
  induction l with
  | nil => simp [sortByKey]
  | cons x rest ih =>
    rw [sortByKey]
    exact insOrd_sorted x (sortByKey rest) ih

theorem stringsLoop_master (maxS : Nat) (list : List (String × StringModel)) :
    ∀ (out : List Nat) (addrs : List (String × Nat)) (bytes : List Nat)
      (addrs' : List (String × Nat)),
    (keysOf list).Nodup → maxS ≤ 65535 →
    (∀ p ∈ list, (p.2 : StringModel).content.length ≤ 255) →
    stringsLoop maxS list out addrs = Except.ok (bytes, addrs') →
    bytes = out ++ list.flatMap strEntryBytes ∧
    (∀ k, k ∉ keysOf list → lookupA addrs' k = lookupA addrs k) ∧
    (∀ p ∈ list, ∃ A, lookupA addrs' (p : String × StringModel).1 = some A ∧
      bytes[A]? = some (p.2 : StringModel).content.length ∧
      (bytes.drop (A + 1)).take (p.2 : StringModel).content.length =
        (p.2 : StringModel).content) := by
  induction list with
  | nil =>
    intro out addrs bytes addrs' hnd hmax h255 hok
    rw [stringsLoop] at hok
    cases hok
    refine ⟨by simp, fun k _ => rfl, by simp⟩
  | cons p0 rest ih =>
    intro out addrs bytes addrs' hnd hmax h255 hok
    obtain ⟨k0, sm0⟩ := p0
    rw [stringsLoop] at hok
    split at hok
    · cases hok
    · rename_i hguard
      simp only [not_lt] at hguard
      have houtlen : out.length < 65536 := by omega
      have hmod : out.length % 65536 = out.length := Nat.mod_eq_of_lt houtlen
      simp only [keysOf, List.map_cons, List.nodup_cons] at hnd
      have hk0 : k0 ∉ keysOf rest := by
        simpa [keysOf] using hnd.1
      obtain ⟨hbytes, hpres, hall⟩ := ih
        (out ++ sm0.content.length % 256 :: sm0.content)
        (insertA addrs k0 (out.length % 65536)) bytes addrs'
        (by simpa [keysOf] using hnd.2) hmax
        (fun q hq => h255 q (List.mem_cons_of_mem _ hq)) hok
    
      have hbytes' : bytes =
          out ++ (sm0.content.length % 256 :: sm0.content ++
            rest.flatMap strEntryBytes) := by
        rw [hbytes, List.append_assoc]
      have hc255 : sm0.content.length ≤ 255 :=
        h255 (k0, sm0) (List.mem_cons_self _ _)
      have hcmod : sm0.content.length % 256 = sm0.content.length :=
        Nat.mod_eq_of_lt (by omega)
      refine ⟨?_, ?_, ?_⟩
      · rw [List.flatMap_cons, hbytes']
        simp [strEntryBytes]
      · intro k hk
        simp only [keysOf, List.map_cons, List.mem_cons] at hk
        push_neg at hk
        rw [hpres k (by simpa [keysOf] using hk.2)]
        exact lookupA_insertA_ne addrs k0 k _ (fun e => hk.1 e.symm)
      · intro p hp
        rcases List.mem_cons.mp hp with h1 | h1
        · cases h1
          refine ⟨out.length, ?_, ?_, ?_⟩
          · rw [hpres k0 hk0, lookupA_insertA_self, hmod]
          · rw [hbytes', List.getElem?_append_right (le_refl out.length)]
            simp [hcmod]
          · rw [hbytes', List.drop_append 1]
            simp only [List.drop_succ_cons, List.drop_zero]
            exact List.take_left _ _
        · exact hall p h1

/-- Claim C5: for every map of string models (distinct keys, contents at
most 255 bytes as the data model requires) whose emission succeeds, the
entries appear in the strings segment in strictly increasing lexicographic
key order; every key is assigned the segment offset at which its entry
starts, the byte there is its content length, and the following bytes are
its content. -/
theorem c5_string_segment (maxS : Nat) (strings : List (String × StringModel))
    (bytes : List Nat) (sa : List (String × Nat))
    (hmax : maxS ≤ 65535) (hnd : (keysOf strings).Nodup)
    (h255 : ∀ p ∈ strings, (p.2 : StringModel).content.length ≤ 255)
    (hok : generate_string_bytes maxS strings = Except.ok (bytes, sa)) :
    List.Pairwise
        (fun (p q : String × StringModel) => charListLt p.1.data q.1.data = true)
        (sortByKey strings) ∧
    bytes = (sortByKey strings).flatMap strEntryBytes ∧
    ∀ p ∈ strings, ∃ A, lookupA sa (p : String × StringModel).1 = some A ∧
      bytes[A]? = some (p.2 : StringModel).content.length ∧
      (bytes.drop (A + 1)).take (p.2 : StringModel).content.length =
        (p.2 : StringModel).content := by
  have hperm := sortByKey_perm strings
  have hnds : (keysOf (sortByKey strings)).Nodup :=
    ((hperm.map Prod.fst).nodup_iff).mpr (by simpa [keysOf] using hnd)
  have h255s : ∀ p ∈ sortByKey strings, (p.2 : StringModel).content.length ≤ 255 :=
    fun p hp => h255 p (hperm.mem_iff.mp hp)
  rw [generate_string_bytes] at hok
  obtain ⟨hbytes, _, hall⟩ := stringsLoop_master maxS (sortByKey strings)
    [] [] bytes sa hnds hmax h255s hok
  refine ⟨?_, by simpa using hbytes, ?_⟩
  · have hle := sortByKey_sorted strings
    have hne : List.Pairwise
        (fun (p q : String × StringModel) => p.1 ≠ q.1) (sortByKey strings) := by
      rw [← List.pairwise_map (f := Prod.fst)]
      exact hnds
    refine (hle.and hne).imp (fun {p q} hpq => ?_)
    cases hf : charListLt p.1.data q.1.data with
    | false =>
      exfalso
      have hdeq := charListLt_eq_of_not _ _ hf hpq.1
      exact hpq.2 (String.ext hdeq)
    | true => rfl
  · intro p hp
    exact hall p (hperm.mem_iff.mpr hp)

/-- Witness for C5 at a concrete two-string map (keys `b`, `a` given in
reverse order): the segment is `[2, 7, 8, 1, 5]`, sorted by key, and every
key's address round-trips. -/
theorem c5_string_segment_witness :
    List.Pairwise
        (fun (p q : String × StringModel) => charListLt p.1.data q.1.data = true)
        (sortByKey [("b", (⟨"b", [5], ⟨"b=x", 2⟩⟩ : StringModel)),
          ("a", ⟨"a", [7, 8], ⟨"a=yz", 1⟩⟩)]) ∧
    ([2, 7, 8, 1, 5] : List Nat) =
      (sortByKey [("b", (⟨"b", [5], ⟨"b=x", 2⟩⟩ : StringModel)),
        ("a", ⟨"a", [7, 8], ⟨"a=yz", 1⟩⟩)]).flatMap strEntryBytes ∧
    ∀ p ∈ [("b", (⟨"b", [5], ⟨"b=x", 2⟩⟩ : StringModel)),
        ("a", ⟨"a", [7, 8], ⟨"a=yz", 1⟩⟩)],
      ∃ A, lookupA [("a", 0), ("b", 3)] (p : String × StringModel).1 = some A ∧
        ([2, 7, 8, 1, 5] : List Nat)[A]? =
          some (p.2 : StringModel).content.length ∧
        (([2, 7, 8, 1, 5] : List Nat).drop (A + 1)).take
            (p.2 : StringModel).content.length = (p.2 : StringModel).content :=
  c5_string_segment 65535
    [("b", ⟨"b", [5], ⟨"b=x", 2⟩⟩), ("a", ⟨"a", [7, 8], ⟨"a=yz", 1⟩⟩)]
    [2, 7, 8, 1, 5] [("a", 0), ("b", 3)]
    (by decide) (by decide) (by decide) (by decide)

theorem pushTarget_offsetsIn_self (m : List (String × List Nat)) (k : String)
    (o : Nat) : offsetsIn (pushTarget m k o) k = offsetsIn m k ++ [o] := by
  induction m with
  | nil => simp [pushTarget, offsetsIn, lookupA]
  | cons p rest ih =>
    obtain ⟨k0, os⟩ := p
    by_cases he : k0 = k
    · subst he
      simp [pushTarget, offsetsIn, lookupA]
    · simp [pushTarget, offsetsIn, lookupA, he] at ih ⊢
      exact ih

theorem pushTarget_offsetsIn_ne (m : List (String × List Nat)) (k k' : String)
    (o : Nat) (h : k' ≠ k) :
    offsetsIn (pushTarget m k o) k' = offsetsIn m k' := by
  have hkk : k ≠ k' := fun e => h e.symm
  induction m with
  | nil => simp [pushTarget, offsetsIn, lookupA, hkk]
  | cons p rest ih =>
    obtain ⟨k0, os⟩ := p
    by_cases he : k0 = k
    · subst he
      simp [pushTarget, offsetsIn, lookupA, hkk]
    · by_cases he2 : k0 = k'
      · subst he2
        simp [pushTarget, offsetsIn, lookupA, he]
      · simp [pushTarget, offsetsIn, lookupA, he, he2] at ih ⊢
        exact ih

theorem bindLabels_bytes (pending : List (Nat × LabelModel)) (opLine : Nat)
    (out : OpsOutput) : (bindLabels pending opLine out).2.bytes = out.bytes := by
  cases pending with
  | nil => rfl
  | cons q rest =>
    obtain ⟨lnum, model⟩ := q
    rw [bindLabels]
    split <;> rfl

theorem bindLabels_targets (pending : List (Nat × LabelModel)) (opLine : Nat)
    (out : OpsOutput) (κ : TargetKind) :
    targetsSel κ (bindLabels pending opLine out).2 = targetsSel κ out := by
  cases pending with
  | nil => rfl
  | cons q rest =>
    obtain ⟨lnum, model⟩ := q
    rw [bindLabels]
    split <;> cases κ <;> rfl

theorem recordTarget_offsetsIn (gabo : Nat → Nat) (offset : Nat) (op : OpModel)
    (out : OpsOutput) (κ : TargetKind) (k : String) :
    offsetsIn (targetsSel κ (recordTarget gabo offset op out)) k =
      if replKey (OpModel.to_bytes op).2 = some (κ, k) then
        offsetsIn (targetsSel κ out) k ++
          [(out.bytes.length + gabo op.opcode + offset) % 65536]
      else offsetsIn (targetsSel κ out) k := by
  rw [recordTarget]
  cases hr : (OpModel.to_bytes op).2 with
  | none => simp [replKey]
  | label k0 =>
    cases κ with
    | lbl =>
      by_cases he : k0 = k
      · subst he
        simp [replKey, targetsSel, pushTarget_offsetsIn_self]
      · simp [replKey, targetsSel, he,
          pushTarget_offsetsIn_ne out.label_targets k0 k _ (fun e => he e.symm)]
    | str => simp [replKey, targetsSel]
    | dat => simp [replKey, targetsSel]
  | str k0 =>
    cases κ with
    | str =>
      by_cases he : k0 = k
      · subst he
        simp [replKey, targetsSel, pushTarget_offsetsIn_self]
      · simp [replKey, targetsSel, he,
          pushTarget_offsetsIn_ne out.string_targets k0 k _ (fun e => he e.symm)]
    | lbl => simp [replKey, targetsSel]
    | dat => simp [replKey, targetsSel]
  | data k0 =>
    cases κ with
    | dat =>
      by_cases he : k0 = k
      · subst he
        simp [replKey, targetsSel, pushTarget_offsetsIn_self]
      · simp [replKey, targetsSel, he,
          pushTarget_offsetsIn_ne out.data_targets k0 k _ (fun e => he e.symm)]
    | lbl => simp [replKey, targetsSel]
    | str => simp [replKey, targetsSel]

theorem opsBytes_cons (op : OpModel) (rest : List OpModel) :
    opsBytes (op :: rest) = (OpModel.to_bytes op).1 ++ opsBytes rest := by
  rw [opsBytes, opsBytes, List.flatMap_cons]

theorem opsLoop_bytes (gabo : Nat → Nat) (offset : Nat) (ops : List OpModel) :
    ∀ (pending : List (Nat × LabelModel)) (out : OpsOutput),
    (opsLoop gabo offset ops pending out).bytes = out.bytes ++ opsBytes ops := by
  induction ops with
  | nil =>
    intro pending out
    rw [opsLoop, opsBytes]
    rw [List.flatMap_nil, List.append_nil]
  | cons op rest ih =>
    intro pending out
    rw [opsLoop, ih]
    simp only [recordTarget_bytes, bindLabels_bytes]
    rw [opsBytes_cons, ← List.append_assoc]

theorem targetsSel_setBytes (κ : TargetKind) (out : OpsOutput) (b : List Nat) :
    targetsSel κ { out with bytes := b } = targetsSel κ out := by
  cases κ <;> rfl

theorem opsLoop_offsetsIn (gabo : Nat → Nat) (offset : Nat) (ops : List OpModel) :
    ∀ (pending : List (Nat × LabelModel)) (out : OpsOutput) (κ : TargetKind)
      (k : String),
    offsetsIn (targetsSel κ (opsLoop gabo offset ops pending out)) k =
      offsetsIn (targetsSel κ out) k ++
        siteOffsets gabo out.bytes.length offset ops κ k := by
  induction ops with
  | nil =>
    intro pending out κ k
    rw [opsLoop, siteOffsets]
    rw [List.append_nil]
  | cons op rest ih =>
    intro pending out κ k
    rw [opsLoop]
    rw [ih, targetsSel_setBytes, recordTarget_offsetsIn, bindLabels_targets]
    rw [siteOffsets]
    simp only [recordTarget_bytes, bindLabels_bytes, List.length_append]
    by_cases hm : replKey (OpModel.to_bytes op).2 = some (κ, k)
    · rw [if_pos hm, if_pos hm]
      rw [List.append_assoc]
      rfl
    · rw [if_neg hm, if_neg hm]
      rfl

theorem siteOffsets_mem_intro (gabo : Nat → Nat) (offset : Nat)
    (ops : List OpModel) :
    ∀ (base i : Nat) (op : OpModel) (κ : TargetKind) (k : String),
    ops.get? i = some op → replKey (OpModel.to_bytes op).2 = some (κ, k) →
    ((base + cursorAt ops i + gabo op.opcode + offset) % 65536) ∈
      siteOffsets gabo base offset ops κ k := by
  induction ops with
  | nil =>
    intro base i op κ k hget
    simp at hget
  | cons op0 rest ih =>
    intro base i op κ k hget hrep
    cases i with
    | zero =>
      rw [List.get?] at hget
      cases hget
      rw [siteOffsets]
      simp only [cursorAt, List.take_zero, List.map_nil, List.sum_nil, Nat.add_zero]
      rw [if_pos hrep]
      exact List.mem_cons_self _ _
    | succ j =>
      rw [List.get?] at hget
      have hmem := ih (base + opLen op0) j op κ k hget hrep
      have harith : base + opLen op0 + cursorAt rest j =
          base + cursorAt (op0 :: rest) (j + 1) := by
        rw [cursorAt, cursorAt, List.take_succ_cons, List.map_cons, List.sum_cons]
        ring
      rw [harith] at hmem
      rw [siteOffsets]
      split
      · exact List.mem_cons_of_mem _ hmem
      · exact hmem

theorem siteOffsets_mem_elim (gabo : Nat → Nat) (offset : Nat)
    (ops : List OpModel) :
    ∀ (base : Nat) (κ : TargetKind) (k : String) (o : Nat),
    o ∈ siteOffsets gabo base offset ops κ k →
    ∃ i op, ops.get? i = some op ∧
      replKey (OpModel.to_bytes op).2 = some (κ, k) ∧
      o = (base + cursorAt ops i + gabo op.opcode + offset) % 65536 := by
  induction ops with
  | nil =>
    intro base κ k o ho
    rw [siteOffsets] at ho
    simp at ho
  | cons op0 rest ih =>
    intro base κ k o ho
    rw [siteOffsets] at ho
    split at ho
    · rename_i hrep
      rcases List.mem_cons.mp ho with h1 | h1
      · refine ⟨0, op0, rfl, hrep, ?_⟩
        rw [h1]
        simp [cursorAt]
      · obtain ⟨j, op, hget, hrep2, ho2⟩ := ih (base + opLen op0) κ k o h1
        refine ⟨j + 1, op, hget, hrep2, ?_⟩
        rw [ho2]
        have harith : base + opLen op0 + cursorAt rest j =
            base + cursorAt (op0 :: rest) (j + 1) := by
          rw [cursorAt, cursorAt, List.take_succ_cons, List.map_cons, List.sum_cons]
          ring
        rw [harith]
    · obtain ⟨j, op, hget, hrep2, ho2⟩ := ih (base + opLen op0) κ k o ho
      refine ⟨j + 1, op, hget, hrep2, ?_⟩
      rw [ho2]
      have harith : base + opLen op0 + cursorAt rest j =
          base + cursorAt (op0 :: rest) (j + 1) := by
        rw [cursorAt, cursorAt, List.take_succ_cons, List.map_cons, List.sum_cons]
        ring
      rw [harith]

theorem mem_insertA {α : Type} (m : List (String × α)) (k : String) (v : α)
    (p : String × α) (h : p ∈ insertA m k v) : p = (k, v) ∨ p ∈ m := by
  induction m with
  | nil =>
    rw [insertA] at h
    exact Or.inl (List.mem_singleton.mp h)
  | cons q rest ih =>
    obtain ⟨k0, v0⟩ := q
    rw [insertA] at h
    by_cases he : k0 = k
    · rw [if_pos he] at h
      rcases List.mem_cons.mp h with h1 | h1
      · exact Or.inl h1
      · exact Or.inr (List.mem_cons_of_mem _ h1)
    · rw [if_neg he] at h
      rcases List.mem_cons.mp h with h1 | h1
      · exact Or.inr (h1 ▸ List.mem_cons_self _ _)
      · rcases ih h1 with h2 | h2
        · exact Or.inl h2
        · exact Or.inr (List.mem_cons_of_mem _ h2)

theorem mem_keysOf_insertA {α : Type} (m : List (String × α)) (k : String)
    (v : α) (x : String) :
    x ∈ keysOf (insertA m k v) ↔ x = k ∨ x ∈ keysOf m := by
  induction m with
  | nil =>
    rw [insertA]
    simp [keysOf]
  | cons q rest ih =>
    obtain ⟨k0, v0⟩ := q
    rw [insertA]
    by_cases he : k0 = k
    · rw [if_pos he]
      subst he
      simp [keysOf]
    · rw [if_neg he]
      simp only [keysOf, List.map_cons, List.mem_cons] at ih ⊢
      constructor
      · rintro (h1 | h1)
        · exact Or.inr (Or.inl h1)
        · rcases ih.mp h1 with h2 | h2
          · exact Or.inl h2
          · exact Or.inr (Or.inr h2)
      · rintro (h1 | h1 | h1)
        · exact Or.inr (ih.mpr (Or.inl h1))
        · exact Or.inl h1
        · exact Or.inr (ih.mpr (Or.inr h1))

theorem insertA_keys_nodup {α : Type} (m : List (String × α)) (k : String)
    (v : α) (h : (keysOf m).Nodup) : (keysOf (insertA m k v)).Nodup := by
  induction m with
  | nil =>
    rw [insertA]
    simp [keysOf]
  | cons q rest ih =>
    obtain ⟨k0, v0⟩ := q
    simp only [keysOf, List.map_cons, List.nodup_cons] at h
    rw [insertA]
    by_cases he : k0 = k
    · rw [if_pos he]
      subst he
      simp only [keysOf, List.map_cons, List.nodup_cons]
      exact h
    · rw [if_neg he]
      simp only [keysOf, List.map_cons, List.nodup_cons]
      refine ⟨?_, ih h.2⟩
      intro hc
      rcases (mem_keysOf_insertA rest k v k0).mp hc with h1 | h1
      · exact he h1
      · exact h.1 h1

theorem stringsLoop_addr_inv (maxS : Nat) (list : List (String × StringModel)) :
    ∀ (output : List Nat) (addresses : List (String × Nat))
      (sb : List Nat) (sa : List (String × Nat)),
    (keysOf addresses).Nodup → (∀ p ∈ addresses, (p : String × Nat).2 < 65536) →
    stringsLoop maxS list output addresses = .ok (sb, sa) →
    (keysOf sa).Nodup ∧ ∀ p ∈ sa, (p : String × Nat).2 < 65536 := by
  induction list with
  | nil =>
    intro output addresses sb sa hnd hbd hrun
    rw [stringsLoop] at hrun
    cases hrun
    exact ⟨hnd, hbd⟩
  | cons e rest ih =>
    intro output addresses sb sa hnd hbd hrun
    obtain ⟨key, sm⟩ := e
    rw [stringsLoop] at hrun
    split at hrun
    · cases hrun
    · refine ih _ _ _ _ (insertA_keys_nodup _ _ _ hnd) ?_ hrun
      intro p hp
      rcases mem_insertA _ _ _ _ hp with h1 | h1
      · rw [h1]
        exact Nat.mod_lt _ (by norm_num)
      · exact hbd p h1

theorem dataLoop_addr_inv (maxD : Nat) (list : List (String × DataModel)) :
    ∀ (output : List Nat) (addresses : List (String × Nat))
      (db : List Nat) (da : List (String × Nat)),
    (keysOf addresses).Nodup → (∀ p ∈ addresses, (p : String × Nat).2 < 65536) →
    dataLoop maxD list output addresses = .ok (db, da) →
    (keysOf da).Nodup ∧ ∀ p ∈ da, (p : String × Nat).2 < 65536 := by
  induction list with
  | nil =>
    intro output addresses db da hnd hbd hrun
    rw [dataLoop] at hrun
    cases hrun
    exact ⟨hnd, hbd⟩
  | cons e rest ih =>
    intro output addresses db da hnd hbd hrun
    obtain ⟨key, dm⟩ := e
    rw [dataLoop] at hrun
    split at hrun
    · cases hrun
    · refine ih _ _ _ _ (insertA_keys_nodup _ _ _ hnd) ?_ hrun
      intro p hp
      rcases mem_insertA _ _ _ _ hp with h1 | h1
      · rw [h1]
        exact Nat.mod_lt _ (by norm_num)
      · exact hbd p h1

theorem bindLabels_label_inv (pending : List (Nat × LabelModel)) (opLine : Nat)
    (out : OpsOutput)
    (hnd : (keysOf out.label_addresses).Nodup)
    (hbd : ∀ p ∈ out.label_addresses, (p : String × Nat).2 < 65536) :
    (keysOf (bindLabels pending opLine out).2.label_addresses).Nodup ∧
      ∀ p ∈ (bindLabels pending opLine out).2.label_addresses,
        (p : String × Nat).2 < 65536 := by
  cases pending with
  | nil => exact ⟨hnd, hbd⟩
  | cons q rest =>
    obtain ⟨lnum, model⟩ := q
    by_cases hle : lnum ≤ opLine
    · rw [bindLabels_cons_le _ _ _ _ _ hle]
      refine ⟨insertA_keys_nodup _ _ _ hnd, ?_⟩
      intro p hp
      rcases mem_insertA _ _ _ _ hp with h1 | h1
      · rw [h1]
        exact Nat.mod_lt _ (by norm_num)
      · exact hbd p h1
    · rw [bindLabels_cons_gt _ _ _ _ _ hle]
      exact ⟨hnd, hbd⟩

theorem opsLoop_label_inv (gabo : Nat → Nat) (offset : Nat) (ops : List OpModel) :
    ∀ (pending : List (Nat × LabelModel)) (out : OpsOutput),
    (keysOf out.label_addresses).Nodup →
    (∀ p ∈ out.label_addresses, (p : String × Nat).2 < 65536) →
    (keysOf (opsLoop gabo offset ops pending out).label_addresses).Nodup ∧
      ∀ p ∈ (opsLoop gabo offset ops pending out).label_addresses,
        (p : String × Nat).2 < 65536 := by
  induction ops with
  | nil =>
    intro pending out hnd hbd
    rw [opsLoop]
    exact ⟨hnd, hbd⟩
  | cons op rest ih =>
    intro pending out hnd hbd
    rw [opsLoop]
    obtain ⟨hnd', hbd'⟩ := bindLabels_label_inv pending op.line_num out hnd hbd
    refine ih _ _ ?_ ?_
    · rw [recordTarget_label_addresses]
      exact hnd'
    · rw [recordTarget_label_addresses]
      exact hbd'

theorem opsBytes_length (ops : List OpModel) :
    (opsBytes ops).length = (ops.map opLen).sum := by
  induction ops with
  | nil => rfl
  | cons op rest ih =>
    rw [opsBytes_cons, List.length_append, ih, List.map_cons, List.sum_cons]
    rfl

theorem cursorAt_mono (ops : List OpModel) (i j : Nat) (h : i ≤ j) :
    cursorAt ops i ≤ cursorAt ops j := by
  rw [cursorAt, cursorAt]
  have h1 : ops.take i = (ops.take j).take i := by
    rw [List.take_take, Nat.min_eq_left h]
  rw [h1]
  conv_rhs => rw [← List.take_append_drop i (ops.take j)]
  rw [List.map_append, List.sum_append]
  exact Nat.le_add_right _ _

theorem cursorAt_succ_eq (ops : List OpModel) (i : Nat) (op : OpModel)
    (h : ops.get? i = some op) :
    cursorAt ops (i + 1) = cursorAt ops i + opLen op := by
  rw [cursorAt, cursorAt, List.take_succ]
  rw [show ops[i]? = some op from by rw [← List.get?_eq_getElem?]; exact h]
  rw [List.map_append, List.sum_append]
  rfl

theorem cursorAt_add_opLen_le (ops : List OpModel) (i : Nat) (op : OpModel)
    (h : ops.get? i = some op) :
    cursorAt ops i + opLen op ≤ (opsBytes ops).length := by
  rw [opsBytes_length, ← cursorAt_succ_eq ops i op h]
  have hi : i + 1 ≤ ops.length := by
    rcases List.get?_eq_some.mp h with ⟨hlt, _⟩
    omega
  calc cursorAt ops (i + 1) ≤ cursorAt ops ops.length := cursorAt_mono ops _ _ hi
    _ = (ops.map opLen).sum := by rw [cursorAt, List.take_length]

theorem replKey_ne_none (r : AddressReplacement) (κ : TargetKind) (k : String)
    (h : replKey r = some (κ, k)) : r ≠ AddressReplacement.none := by
  intro hn
  rw [hn] at h
  simp [replKey] at h

theorem opsOut_offsets_char (gabo : Nat → Nat) (offset : Nat)
    (pm : ProgramModel) (opsOut : OpsOutput)
    (hops : generate_ops_bytes gabo pm.ops offset pm.labels = some opsOut)
    (hsep : ∀ op' ∈ pm.ops, (OpModel.to_bytes op').2 ≠ AddressReplacement.none →
      gabo op'.opcode + 2 ≤ opLen op')
    (hbig : offset + (opsBytes pm.ops).length < 65536) :
    (∀ (κ' : TargetKind) (k' : String) (o : Nat),
      o ∈ offsetsIn (targetsSel κ' opsOut) k' →
      ∃ j op', pm.ops.get? j = some op' ∧
        replKey (OpModel.to_bytes op').2 = some (κ', k') ∧
        o = offset + cursorAt pm.ops j + gabo op'.opcode ∧
        o + 2 ≤ offset + (opsBytes pm.ops).length) ∧
    ∀ (i : Nat) (op : OpModel) (κ : TargetKind) (k : String),
      pm.ops.get? i = some op →
      replKey (OpModel.to_bytes op).2 = some (κ, k) →
      (offset + cursorAt pm.ops i + gabo op.opcode) ∈
        offsetsIn (targetsSel κ opsOut) k := by
  rw [generate_ops_bytes] at hops
  obtain ⟨pending, hconv, hloop⟩ := Option.map_eq_some'.mp hops
  have hoffs : ∀ (κ' : TargetKind) (k' : String),
      offsetsIn (targetsSel κ' opsOut) k' =
        siteOffsets gabo 0 offset pm.ops κ' k' := by
    intro κ' k'
    rw [← hloop, opsLoop_offsetsIn]
    rw [show offsetsIn (targetsSel κ' emptyOpsOutput) k' = [] from by
      cases κ' <;> rfl]
    rw [List.nil_append]
    rfl
  constructor
  · intro κ' k' o ho
    rw [hoffs] at ho
    obtain ⟨j, op', hget, hrep', ho2⟩ :=
      siteOffsets_mem_elim gabo offset pm.ops 0 κ' k' o ho
    have hle := cursorAt_add_opLen_le pm.ops j op' hget
    have hg := hsep op' (List.get?_mem hget)
      (replKey_ne_none _ _ _ hrep')
    refine ⟨j, op', hget, hrep', ?_, ?_⟩
    · rw [ho2, Nat.mod_eq_of_lt (by omega)]
      omega
    · rw [ho2, Nat.mod_eq_of_lt (by omega)]
      omega
  · intro i op κ k hget hrep
    have hmem := siteOffsets_mem_intro gabo offset pm.ops 0 i op κ k hget hrep
    have hle := cursorAt_add_opLen_le pm.ops i op hget
    have hg := hsep op (List.get?_mem hget)
      (replKey_ne_none _ _ _ hrep)
    rw [hoffs]
    rw [show offset + cursorAt pm.ops i + gabo op.opcode =
      (0 + cursorAt pm.ops i + gabo op.opcode + offset) % 65536 from by
      rw [Nat.mod_eq_of_lt (by omega)]
      omega]
    exact hmem

/-- Claim C1: for every op whose operand is symbolic (Label, StrKey or
DataKey), under the spec §3 invariants that the emitted tape fits 16-bit
addressing and that an op's address operand lies inside the op's own byte
image (`get_addr_byte_offset(opcode) + 2 ≤` op byte length), the generator
records a target for that symbol at the absolute tape offset
`tape_prefix_length + op_segment_cursor + addr_operand_offset(opcode)`, and
whenever the symbol exists in the corresponding address table the patched
tape reads back exactly the resolved address as a 16-bit big-endian value
at that offset. -/
theorem c1_patch_offsets (h1 h2 pv maxS maxD : Nat) (gabo : Nat → Nat)
    (pm : ProgramModel) (tape : List Nat) (i : Nat) (op : OpModel)
    (κ : TargetKind) (k : String)
    (hgen : generate_byte_code h1 h2 pv maxS maxD gabo pm = some (Except.ok tape))
    (htl : tape.length < 65536)
    (hsep : ∀ op' ∈ pm.ops, (OpModel.to_bytes op').2 ≠ AddressReplacement.none →
      gabo op'.opcode + 2 ≤ opLen op')
    (hop : pm.ops.get? i = some op)
    (hrep : replKey (OpModel.to_bytes op).2 = some (κ, k)) :
    ∃ opsOut sb sa db da,
      generate_ops_bytes gabo pm.ops (tapePrefixLen pm) pm.labels = some opsOut ∧
      generate_string_bytes maxS pm.strings = Except.ok (sb, sa) ∧
      generate_data_bytes maxD pm.data = Except.ok (db, da) ∧
      tapePrefixLen pm + cursorAt pm.ops i + gabo op.opcode ∈
        offsetsIn (targetsSel κ opsOut) k ∧
      ∀ a, lookupA (tableSel κ sa da opsOut.label_addresses) k = some a →
        readU16 tape (tapePrefixLen pm + cursorAt pm.ops i + gabo op.opcode) = a := by
  obtain ⟨opsOut, sb, sa, db, da, o1, o2, hops, hstr, hdat, hu1, hu2, hu3⟩ :=
    generate_byte_code_decomp h1 h2 pv maxS maxD gabo pm tape hgen
  have hlen3 := update_addresses_length _ _ _ _ hu3
  have hlen2 := update_addresses_length _ _ _ _ hu2
  have hlen1 := update_addresses_length _ _ _ _ hu1
  have hob : opsOut.bytes = opsBytes pm.ops := by
    have hops' := hops
    rw [generate_ops_bytes] at hops'
    obtain ⟨pending, hconv, hloop⟩ := Option.map_eq_some'.mp hops'
    rw [← hloop, opsLoop_bytes]
    rfl
  have hrawlen : (rawTape h1 h2 pv pm opsOut sb db).length =
      9 + pm.name.length + pm.version.length + (opsBytes pm.ops).length +
        sb.length + db.length := by
    rw [rawTape_length, hob]
  have hpre : tapePrefixLen pm = 7 + pm.name.length + pm.version.length := rfl
  have hbig : tapePrefixLen pm + (opsBytes pm.ops).length < 65536 := by omega
  obtain ⟨hchar, hintro⟩ :=
    opsOut_offsets_char gabo (tapePrefixLen pm) pm opsOut hops hsep hbig
  have hOin := hintro i op κ k hop hrep
  refine ⟨opsOut, sb, sa, db, da, hops, hstr, hdat, hOin, ?_⟩
  intro a hlk
  have hdisj : ∀ (κ' : TargetKind) (k' : String) (o : Nat),
      o ∈ offsetsIn (targetsSel κ' opsOut) k' →
      (o + 2 ≤ tapePrefixLen pm + cursorAt pm.ops i + gabo op.opcode ∨
        tapePrefixLen pm + cursorAt pm.ops i + gabo op.opcode + 2 ≤ o) ∨
      (o = tapePrefixLen pm + cursorAt pm.ops i + gabo op.opcode ∧
        κ' = κ ∧ k' = k) := by
    intro κ' k' o ho
    obtain ⟨j, op', hget, hrep', hoe, hob2⟩ := hchar κ' k' o ho
    rcases Nat.lt_trichotomy j i with hji | hji | hji
    · left
      left
      have hsucc := cursorAt_succ_eq pm.ops j op' hget
      have hmono := cursorAt_mono pm.ops (j + 1) i hji
      have hg := hsep op' (List.get?_mem hget) (replKey_ne_none _ _ _ hrep')
      omega
    · subst hji
      rw [hop] at hget
      injection hget with hgi
      subst hgi
      rw [hrep'] at hrep
      injection hrep with hpair
      right
      exact ⟨hoe, congrArg Prod.fst hpair, congrArg Prod.snd hpair⟩
    · left
      right
      have hsucc := cursorAt_succ_eq pm.ops i op hop
      have hmono := cursorAt_mono pm.ops (i + 1) j hji
      have hg := hsep op (List.get?_mem hop) (replKey_ne_none _ _ _ hrep)
      omega
  have hinraw : ∀ (κ' : TargetKind) (k' : String) (o : Nat),
      o ∈ offsetsIn (targetsSel κ' opsOut) k' →
      o + 1 < (rawTape h1 h2 pv pm opsOut sb db).length := by
    intro κ' k' o ho
    obtain ⟨j, op', hg1, hg2, hg3, hob2⟩ := hchar κ' k' o ho
    omega
  cases κ with
  | str =>
    have hinv : (keysOf sa).Nodup ∧ ∀ p ∈ sa, (p : String × Nat).2 < 65536 := by
      have hstr' := hstr
      rw [generate_string_bytes] at hstr'
      exact stringsLoop_addr_inv maxS (sortByKey pm.strings) [] [] sb sa
        (by simp [keysOf]) (by simp) hstr'
    have hka : (k, a) ∈ sa := lookupA_mem _ _ _ hlk
    have ha : a < 65536 := hinv.2 (k, a) hka
    have hr1 := update_addresses_read sa (rawTape h1 h2 pv pm opsOut sb db)
      opsOut.string_targets
      (tapePrefixLen pm + cursorAt pm.ops i + gabo op.opcode) k a
      (fun p hp o ho => hinraw .str p.1 o ho)
      hka hOin
      (fun p hp o ho => by
        rcases hdisj .str p.1 o ho with hd | ⟨heo, _, hke⟩
        · exact Or.inl hd
        · refine Or.inr ⟨heo, ?_⟩
          have hmem2 : (k, (p : String × Nat).2) ∈ sa := by
            rw [← hke]
            exact hp
          exact keys_nodup_val_eq sa hinv.1 k _ a hmem2 hka)
      o1 hu1
    have hp2 := update_addresses_preserve da o1 opsOut.data_targets
      (tapePrefixLen pm + cursorAt pm.ops i + gabo op.opcode) a
      (fun p hp o ho => by
        rw [hlen1]
        exact hinraw .dat p.1 o ho)
      (fun p hp o ho => by
        rcases hdisj .dat p.1 o ho with hd | ⟨_, hκe, _⟩
        · exact Or.inl hd
        · exact absurd hκe (by decide))
      hr1 o2 hu2
    have hp3 := update_addresses_preserve opsOut.label_addresses o2
      opsOut.label_targets
      (tapePrefixLen pm + cursorAt pm.ops i + gabo op.opcode) a
      (fun p hp o ho => by
        rw [hlen2, hlen1]
        exact hinraw .lbl p.1 o ho)
      (fun p hp o ho => by
        rcases hdisj .lbl p.1 o ho with hd | ⟨_, hκe, _⟩
        · exact Or.inl hd
        · exact absurd hκe (by decide))
      hp2 tape hu3
    rw [readU16, List.getD_eq_getElem?_getD, List.getD_eq_getElem?_getD,
      hp3.1, hp3.2]
    simp only [Option.getD_some]
    omega
  | dat =>
    have hinv : (keysOf da).Nodup ∧ ∀ p ∈ da, (p : String × Nat).2 < 65536 := by
      have hdat' := hdat
      rw [generate_data_bytes] at hdat'
      exact dataLoop_addr_inv maxD (sortByKey pm.data) [] [] db da
        (by simp [keysOf]) (by simp) hdat'
    have hka : (k, a) ∈ da := lookupA_mem _ _ _ hlk
    have ha : a < 65536 := hinv.2 (k, a) hka
    have hr2 := update_addresses_read da o1 opsOut.data_targets
      (tapePrefixLen pm + cursorAt pm.ops i + gabo op.opcode) k a
      (fun p hp o ho => by
        rw [hlen1]
        exact hinraw .dat p.1 o ho)
      hka hOin
      (fun p hp o ho => by
        rcases hdisj .dat p.1 o ho with hd | ⟨heo, _, hke⟩
        · exact Or.inl hd
        · refine Or.inr ⟨heo, ?_⟩
          have hmem2 : (k, (p : String × Nat).2) ∈ da := by
            rw [← hke]
            exact hp
          exact keys_nodup_val_eq da hinv.1 k _ a hmem2 hka)
      o2 hu2
    have hp3 := update_addresses_preserve opsOut.label_addresses o2
      opsOut.label_targets
      (tapePrefixLen pm + cursorAt pm.ops i + gabo op.opcode) a
      (fun p hp o ho => by
        rw [hlen2, hlen1]
        exact hinraw .lbl p.1 o ho)
      (fun p hp o ho => by
        rcases hdisj .lbl p.1 o ho with hd | ⟨_, hκe, _⟩
        · exact Or.inl hd
        · exact absurd hκe (by decide))
      hr2 tape hu3
    rw [readU16, List.getD_eq_getElem?_getD, List.getD_eq_getElem?_getD,
      hp3.1, hp3.2]
    simp only [Option.getD_some]
    omega
  | lbl =>
    have hinv : (keysOf opsOut.label_addresses).Nodup ∧
        ∀ p ∈ opsOut.label_addresses, (p : String × Nat).2 < 65536 := by
      have hops' := hops
      rw [generate_ops_bytes] at hops'
      obtain ⟨pending, hconv, hloop⟩ := Option.map_eq_some'.mp hops'
      rw [← hloop]
      exact opsLoop_label_inv gabo (tapePrefixLen pm) pm.ops pending
        emptyOpsOutput (by simp [keysOf, emptyOpsOutput])
        (by simp [emptyOpsOutput])
    have hka : (k, a) ∈ opsOut.label_addresses := lookupA_mem _ _ _ hlk
    have ha : a < 65536 := hinv.2 (k, a) hka
    have hr3 := update_addresses_read opsOut.label_addresses o2
      opsOut.label_targets
      (tapePrefixLen pm + cursorAt pm.ops i + gabo op.opcode) k a
      (fun p hp o ho => by
        rw [hlen2, hlen1]
        exact hinraw .lbl p.1 o ho)
      hka hOin
      (fun p hp o ho => by
        rcases hdisj .lbl p.1 o ho with hd | ⟨heo, _, hke⟩
        · exact Or.inl hd
        · refine Or.inr ⟨heo, ?_⟩
          have hmem2 : (k, (p : String × Nat).2) ∈ opsOut.label_addresses := by
            rw [← hke]
            exact hp
          exact keys_nodup_val_eq opsOut.label_addresses hinv.1 k _ a hmem2 hka)
      tape hu3
    rw [readU16, List.getD_eq_getElem?_getD, List.getD_eq_getElem?_getD,
      hr3.1, hr3.2]
    simp only [Option.getD_some]
    omega

/-- Witness for C1 at `pmC1`: the `prts foo` operand site is recorded at
absolute offset 10 and the patched tape reads the address of `foo` there. -/
theorem c1_patch_offsets_witness :
    ∃ opsOut sb sa db da,
      generate_ops_bytes (fun _ => 1) pmC1.ops (tapePrefixLen pmC1) pmC1.labels =
        some opsOut ∧
      generate_string_bytes 65535 pmC1.strings = Except.ok (sb, sa) ∧
      generate_data_bytes 65535 pmC1.data = Except.ok (db, da) ∧
      10 ∈ offsetsIn (targetsSel TargetKind.str opsOut) "foo" ∧
      ∀ a, lookupA (tableSel TargetKind.str sa da opsOut.label_addresses) "foo" =
          some a →
        readU16 [0, 0, 0, 1, 97, 1, 98, 0, 3, 1, 0, 0, 0, 3, 2, 97, 98] 10 = a :=
  c1_patch_offsets 0 0 0 65535 65535 (fun _ => 1) pmC1
    [0, 0, 0, 1, 97, 1, 98, 0, 3, 1, 0, 0, 0, 3, 2, 97, 98] 0 opC1
    TargetKind.str "foo" (by decide) (by decide) (by decide) (by decide)
    (by decide)
